import Mathlib

/-!
# Verification of the jax-js tokenizer suite

Shallow embedding of `packages/loaders/src/tokenizers.ts` (BPE / tiktoken /
CLIP) and of the SentencePiece `Unigram` tokenizer from the same module.

Modelling conventions:
* JavaScript strings are modelled as `List Char` (Unicode scalar values).
  The source indexes UTF-16 code units; for texts made of BMP scalars the
  two notions coincide, and all concrete inputs used here are of that form.
* The source keys rank maps by hex-encoded byte strings; two hex characters
  always encode exactly one byte, so we key by the byte lists themselves
  (`List Nat`), which the repository's own spec notes is an equivalent
  byte-indexed storage.
* JavaScript `Map` objects are association lists in insertion order with
  `assocGet` as `Map.get`.
* Pre-tokenization regexes cannot be embedded; every place the source calls
  `text.matchAll(this.regex)` the model takes the resulting splitter as a
  function argument `splitter : List Char → List (List Char)`.
* Unigram piece scores are IEEE doubles in the source; the model uses exact
  rationals `ℚ`, preserving the ordered-additive structure the algorithm
  relies on.
-/

set_option maxRecDepth 100000

namespace Tokenizers

/-- `Map.get` on an association list (first binding wins, like a JS `Map`
whose keys are unique). -/
def assocGet {α β : Type} [DecidableEq α] (m : List (α × β)) (k : α) : Option β :=
  (m.find? (fun e => e.1 = k)).map (·.2)

/-- `piece.substring(2*a, 2*b)` on a hex string = the byte slice `[a, b)`. -/
def slice {α : Type} (xs : List α) (a b : Nat) : List α :=
  (xs.drop a).take (b - a)

/-! ## Byte-pair merge engine (`_bytePairMerge`, `bytePairEncode`) -/

/-- `~(1 << 31)` in JavaScript: the "no pair" sentinel rank. -/
def RANK_MAX : Nat := 2 ^ 31 - 1

/-- Stand-in for a JavaScript `undefined` flowing out of `ranks.get(...)!`;
never produced under the hypotheses of the theorems below. -/
def UNDEF_TOKEN : Nat := 2 ^ 53

/-- One entry of the `parts` array: `[start-byte-index, rank-if-merged-with-next]`. -/
structure Part where
  start : Nat
  rank : Nat
  deriving Repr, DecidableEq

instance : Inhabited Part := ⟨⟨0, RANK_MAX⟩⟩

/-- `ranks.get(bytes) ?? RANK_MAX`. -/
def ranksD (ranks : List (List Nat × Nat)) (bytes : List Nat) : Nat :=
  (assocGet ranks bytes).getD RANK_MAX

/-- The `getRank` closure of `_bytePairMerge`: rank of merging part `i` with
its successor, looked up over the byte span `parts[i].start .. parts[i+3].start`
(the `+3` is because `parts[i+1]` has not been deleted yet). -/
def getRankAt (ranks : List (List Nat × Nat)) (piece : List Nat)
    (parts : List Part) (i : Nat) : Nat :=
  if i + 3 < parts.length then
    ranksD ranks (slice piece (parts.getD i default).start (parts.getD (i + 3) default).start)
  else RANK_MAX

/-- Scan `j < parts.length - 1` for the pair of strictly minimal rank; the
strict `<` keeps the leftmost index among ties, exactly as the source's
`if (parts[j][1] < minRank[0])`.  The initial index `-1` of the source is
never read when the minimum stays `RANK_MAX`; we use `0` in its place. -/
def findMin (parts : List Part) : Nat × Nat :=
  (List.range (parts.length - 1)).foldl
    (fun acc j =>
      if (parts.getD j default).rank < acc.1 then ((parts.getD j default).rank, j) else acc)
    (RANK_MAX, 0)

/-- Overwrite the `rank` field of `parts[i]`. -/
def setRank (parts : List Part) (i : Nat) (r : Nat) : List Part :=
  parts.set i ⟨(parts.getD i default).start, r⟩

/-- The body of the merge loop at the selected index `i`: update
`parts[i-1][1]` and `parts[i][1]` via `getRank` (reading only `start` fields,
so order is immaterial), then `parts.splice(i + 1, 1)`. -/
def mergeStep (ranks : List (List Nat × Nat)) (piece : List Nat)
    (parts : List Part) (i : Nat) : List Part :=
  let parts1 := if 0 < i then setRank parts (i - 1) (getRankAt ranks piece parts (i - 1)) else parts
  let parts2 := setRank parts1 i (getRankAt ranks piece parts1 i)
  parts2.eraseIdx (i + 1)

/-- The `while (minRank[0] !== RANK_MAX)` loop.  Each iteration removes one
part, so `parts.length` is enough fuel. -/
def mergeLoop (ranks : List (List Nat × Nat)) (piece : List Nat) :
    Nat → List Part → List Part
  | 0, parts => parts
  | fuel + 1, parts =>
    let m := findMin parts
    if m.1 = RANK_MAX then parts
    else mergeLoop ranks piece fuel (mergeStep ranks piece parts m.2)

/-- The initial `parts` array of `_bytePairMerge`: one entry per byte with the
rank of merging it with the next byte, plus the two `RANK_MAX` sentinels. -/
def initParts (ranks : List (List Nat × Nat)) (piece : List Nat) : List Part :=
  ((List.range (piece.length - 1)).map
    (fun i => Part.mk i (ranksD ranks (slice piece i (i + 2))))) ++
  [⟨piece.length - 1, RANK_MAX⟩, ⟨piece.length, RANK_MAX⟩]

/-- `_bytePairMerge(ranks, piece)`. -/
def bytePairMerge (ranks : List (List Nat × Nat)) (piece : List Nat) : List Part :=
  mergeLoop ranks piece (initParts ranks piece).length (initParts ranks piece)

/-- Read off the rank of each remaining part's byte span. -/
def emitTokens (ranks : List (List Nat × Nat)) (piece : List Nat)
    (parts : List Part) : List Nat :=
  (List.range (parts.length - 1)).map
    (fun i =>
      (assocGet ranks
        (slice piece (parts.getD i default).start (parts.getD (i + 1) default).start)).getD
        UNDEF_TOKEN)

/-- `bytePairEncode(piece, ranks)`. -/
def bytePairEncode (piece : List Nat) (ranks : List (List Nat × Nat)) : List Nat :=
  if piece.length = 1 then [(assocGet ranks piece).getD UNDEF_TOKEN]
  else emitTokens ranks piece (bytePairMerge ranks piece)

end Tokenizers

namespace Tokenizers

/-- Vocabulary of the C4 scenario: `a b c` singles, `ab` and `bc` with equal
rank 3, `abc` absent.  Bytes: a=0x61, b=0x62, c=0x63. -/
def c4Ranks : List (List Nat × Nat) :=
  [([0x61], 0), ([0x62], 1), ([0x63], 2), ([0x61, 0x62], 3), ([0x62, 0x63], 3)]

/-- The argmin fold underlying `findMin` returns the overall minimum, held at
the leftmost index attaining it. -/
theorem argminFold_spec (f : Nat → Nat) (n : Nat) :
    (∀ j, j < n →
      ((List.range n).foldl (fun acc j => if f j < acc.1 then (f j, j) else acc)
        (RANK_MAX, 0)).1 ≤ f j) ∧
    (∀ j, j < ((List.range n).foldl (fun acc j => if f j < acc.1 then (f j, j) else acc)
        (RANK_MAX, 0)).2 →
      ((List.range n).foldl (fun acc j => if f j < acc.1 then (f j, j) else acc)
        (RANK_MAX, 0)).1 < f j) ∧
    (((List.range n).foldl (fun acc j => if f j < acc.1 then (f j, j) else acc)
        (RANK_MAX, 0)).1 ≠ RANK_MAX →
      ((List.range n).foldl (fun acc j => if f j < acc.1 then (f j, j) else acc)
        (RANK_MAX, 0)).2 < n ∧
      f ((List.range n).foldl (fun acc j => if f j < acc.1 then (f j, j) else acc)
        (RANK_MAX, 0)).2 =
      ((List.range n).foldl (fun acc j => if f j < acc.1 then (f j, j) else acc)
        (RANK_MAX, 0)).1) := by
  induction n with
  | zero => exact ⟨fun j hj => absurd hj (by omega), fun j hj => by simp at hj, fun h => by simp at h⟩
  | succ n ih =>
    obtain ⟨ih1, ih2, ih3⟩ := ih
    simp only [List.range_succ, List.foldl_append, List.foldl_cons, List.foldl_nil] at *
    set r := (List.range n).foldl (fun acc j => if f j < acc.1 then (f j, j) else acc)
      (RANK_MAX, 0) with hr
    by_cases h : f n < r.1
    · simp only [h, if_pos]
      refine ⟨fun j hj => ?_, fun j hj => ?_, fun _ => ⟨Nat.lt_succ_self n, by simp⟩⟩
      · rcases Nat.lt_succ_iff_lt_or_eq.mp hj with hj' | rfl
        · exact le_of_lt (lt_of_lt_of_le h (ih1 j hj'))
        · exact le_refl _
      · exact lt_of_lt_of_le h (ih1 j hj)
    · simp only [h, if_neg, not_false_iff]
      refine ⟨fun j hj => ?_, ih2, fun hne => ?_⟩
      · rcases Nat.lt_succ_iff_lt_or_eq.mp hj with hj' | rfl
        · exact ih1 j hj'
        · exact le_of_not_lt h
      · exact ⟨Nat.lt_succ_of_lt (ih3 hne).1, (ih3 hne).2⟩

/-- `findMin` returns the minimal pair rank, at the leftmost index among
equal-rank pairs; when the minimum is not the sentinel the index is in range
and carries exactly that rank. -/
theorem findMin_leftmost (parts : List Part) :
    (∀ j, j < parts.length - 1 → (findMin parts).1 ≤ (parts.getD j default).rank) ∧
    (∀ j, j < (findMin parts).2 → (findMin parts).1 < (parts.getD j default).rank) ∧
    ((findMin parts).1 ≠ RANK_MAX →
      (findMin parts).2 < parts.length - 1 ∧
      (parts.getD (findMin parts).2 default).rank = (findMin parts).1) := by
  have h := argminFold_spec (fun j => (parts.getD j default).rank) (parts.length - 1)
  exact ⟨h.1, h.2.1, fun hne => ⟨(h.2.2 hne).1, (h.2.2 hne).2⟩⟩

/-- C4: in the byte-pair merge engine, among pairs of equal minimum rank the
leftmost (smallest index) pair is selected for merging — `findMin` returns the
global minimum, held strictly below every pair to its left; and concretely, on
a vocabulary where `ab` and `bc` share rank 3 and `abc` is absent, the input
`abc` merges the leftmost pair first, yielding `[rank "ab", rank "c"] = [3, 2]`
and not `[rank "a", rank "bc"] = [0, 3]`. -/
theorem claim_C4 :
    (∀ parts : List Part,
      (∀ j, j < parts.length - 1 → (findMin parts).1 ≤ (parts.getD j default).rank) ∧
      (∀ j, j < (findMin parts).2 → (findMin parts).1 < (parts.getD j default).rank)) ∧
    bytePairEncode [0x61, 0x62, 0x63] c4Ranks = [3, 2] ∧
    bytePairEncode [0x61, 0x62, 0x63] c4Ranks ≠ [0, 3] :=
  ⟨fun parts => ⟨(findMin_leftmost parts).1, (findMin_leftmost parts).2.1⟩,
   by decide, by decide⟩

/-- Witness for C4: the leftmost-minimum property applied at a concrete
`parts` array with a rank tie between indices 0 and 1. -/
theorem claim_C4_witness :
    (findMin [Part.mk 0 3, Part.mk 1 3, Part.mk 2 RANK_MAX, Part.mk 3 RANK_MAX]).1 ≤
      (([Part.mk 0 3, Part.mk 1 3, Part.mk 2 RANK_MAX, Part.mk 3 RANK_MAX].getD 1
        default) : Part).rank :=
  (claim_C4.1 [Part.mk 0 3, Part.mk 1 3, Part.mk 2 RANK_MAX, Part.mk 3 RANK_MAX]).1 1
    (by decide)

/-! ## UTF-8 (`TextEncoder`) -/

/-- UTF-8 encoding of one Unicode scalar value (`TextEncoder` on strings
without lone surrogates). -/
def utf8Char (c : Char) : List Nat :=
  let v := c.toNat
  if v < 0x80 then [v]
  else if v < 0x800 then [0xC0 + v / 64, 0x80 + v % 64]
  else if v < 0x10000 then [0xE0 + v / 4096, 0x80 + v / 64 % 64, 0x80 + v % 64]
  else [0xF0 + v / 262144, 0x80 + v / 4096 % 64, 0x80 + v / 64 % 64, 0x80 + v % 64]

/-- `new TextEncoder().encode(s)`. -/
def utf8 (s : List Char) : List Nat := s.flatMap utf8Char

/-! ## BPE encoder (`BpeEncoding.encode`) -/

/-- A constructed `BpeEncoding`'s data: the rank table (bytes → rank) and the
special-token table (literal → rank), both in insertion order.  The
pre-tokenization regex is abstracted by a splitter argument at use sites. -/
structure Bpe where
  encoder : List (List Nat × Nat)
  specials : List (List Char × Nat)

/-- Does `pat` occur at the head of `text`? -/
def startsWith {α : Type} [DecidableEq α] : List α → List α → Bool
  | [], _ => true
  | _ :: _, [] => false
  | a :: as, b :: bs => decide (a = b) && startsWith as bs

/-- The first special literal (in alternation order) matching at this point. -/
def findAt (specials : List (List Char)) (suffix : List Char) : Option (List Char) :=
  specials.find? (fun s => startsWith s suffix)

/-- `specialRegex.exec(text)` with `lastIndex = i`: the earliest position
`≥ i` where some special literal occurs, together with that literal. -/
def execSpecial (specials : List (List Char)) (text : List Char) :
    Nat → Nat → Option (Nat × List Char)
  | _, 0 => none
  | i, fuel + 1 =>
    match findAt specials (text.drop i) with
    | some s => some (i, s)
    | none => if i < text.length then execSpecial specials text (i + 1) fuel else none

/-- The inner rejection loop of `encode`: keep taking special matches; accept
the first whose literal is in `allowedSpecial`, otherwise re-scan from one
character past the match start (`lastIndex = nextSpecial.index + 1`). -/
def scanSpecial (specials allowed : List (List Char)) (text : List Char) :
    Nat → Nat → Option (Nat × List Char)
  | _, 0 => none
  | start, fuel + 1 =>
    match execSpecial specials text start (text.length + 1) with
    | none => none
    | some (i, s) =>
      if s ∈ allowed then some (i, s) else scanSpecial specials allowed text (i + 1) fuel

/-- Encode one regex fragment: full byte-sequence lookup first, falling back
to the merge engine. -/
def encodeFragment (encoder : List (List Nat × Nat)) (frag : List Char) : List Nat :=
  let piece := utf8 frag
  match assocGet encoder piece with
  | some t => [t]
  | none => bytePairEncode piece encoder

/-- `for (const mat of text.slice(start, end).matchAll(this.regex))` over a
fragment of plain text. -/
def encodePlain (encoder : List (List Nat × Nat))
    (splitter : List Char → List (List Char)) (s : List Char) : List Nat :=
  (splitter s).flatMap (encodeFragment encoder)

/-- The outer `while (true)` loop of `encode`.  After an accepted special the
source resumes at `nextSpecial.index + nextSpecial.length`; `nextSpecial` is
the `exec` result *array*, whose length is 1 (full match only, the special
pattern has no capture groups), so the scan resumes at `index + 1` — not at
the end of the matched literal. -/
def encodeLoop (encoder : List (List Nat × Nat)) (specials : List (List Char × Nat))
    (splitter : List Char → List (List Char)) (allowed : List (List Char))
    (text : List Char) : Nat → Nat → List Nat
  | _, 0 => []
  | start, fuel + 1 =>
    match scanSpecial (specials.map (·.1)) allowed text start (text.length + 1) with
    | none => encodePlain encoder splitter (slice text start text.length)
    | some (i, s) =>
      encodePlain encoder splitter (slice text start i) ++
      (assocGet specials s).getD UNDEF_TOKEN ::
      encodeLoop encoder specials splitter allowed text (i + 1) fuel

/-- `BpeEncoding.encode(text, allowedSpecial)` for a plain (non-CLIP)
encoding, whose `_beforeEncode`/`_afterEncode` hooks are the identity. -/
def bpeEncode (enc : Bpe) (splitter : List Char → List (List Char))
    (allowed : List (List Char)) (text : List Char) : List Nat :=
  encodeLoop enc.encoder enc.specials splitter allowed text 0 (text.length + 1)

/-- `encodeWithSpecialTokens(text)`: every special literal allowed. -/
def bpeEncodeWithSpecialTokens (enc : Bpe) (splitter : List Char → List (List Char))
    (text : List Char) : List Nat :=
  bpeEncode enc splitter (enc.specials.map (·.1)) text

/-! ## CLIP specialization (`ClipEncoding`) -/

/-- JavaScript's `\s` character class (WhiteSpace + LineTerminator). -/
def jsWs (c : Char) : Bool :=
  [0x9, 0xA, 0xB, 0xC, 0xD, 0x20, 0xA0, 0x1680, 0x2028, 0x2029, 0x202F,
    0x205F, 0x3000, 0xFEFF].contains c.toNat ||
  (decide (0x2000 ≤ c.toNat) && decide (c.toNat ≤ 0x200A))

/-- Worker for `collapseWs`: `inRun` records whether the previous character
belonged to the current whitespace run (whose single `' '` is already out). -/
def collapseWsGo : Bool → List Char → List Char
  | _, [] => []
  | inRun, c :: rest =>
    if jsWs c then
      if inRun then collapseWsGo true rest else ' ' :: collapseWsGo true rest
    else c :: collapseWsGo false rest

/-- `.replace(/\s+/g, " ")`: each maximal whitespace run becomes one space. -/
def collapseWs (l : List Char) : List Char := collapseWsGo false l

/-- `.trim()`: strip leading and trailing whitespace. -/
def trimWs (l : List Char) : List Char :=
  ((l.dropWhile jsWs).reverse.dropWhile jsWs).reverse

/-- `ClipEncoding._beforeEncode`: lowercase (ASCII case map in the model; the
source uses `toLowerCase`), collapse whitespace, trim, then re-split with the
CLIP pattern and append one space to every match. -/
def clipBeforeEncode (splitter : List Char → List (List Char))
    (text : List Char) : List Char :=
  ((splitter (trimWs (collapseWs (text.map Char.toLower)))).map (· ++ [' '])).flatten

/-- `ClipEncoding._afterEncode`: frame with BOS/EOS, pad with id 0 while the
length is under 77, then `slice(0, 77)`. -/
def clipAfterEncode (bos eos : Nat) (tokens : List Nat) : List Nat :=
  (([bos] ++ tokens ++ [eos]) ++ List.replicate (77 - (tokens.length + 2)) 0).take 77

def sotLit : List Char := "<|startoftext|>".toList

def eotLit : List Char := "<|endoftext|>".toList

/-- The body token stream of `ClipEncoding.encode`: the inherited BPE loop
applied to the `_beforeEncode`-transformed text. -/
def clipBody (enc : Bpe) (splitter : List Char → List (List Char))
    (allowed : List (List Char)) (text : List Char) : List Nat :=
  encodeLoop enc.encoder enc.specials splitter allowed (clipBeforeEncode splitter text)
    0 ((clipBeforeEncode splitter text).length + 1)

/-- `ClipEncoding.encode`: `_beforeEncode`, the BPE loop, `_afterEncode`. -/
def clipEncode (enc : Bpe) (splitter : List Char → List (List Char))
    (allowed : List (List Char)) (text : List Char) : List Nat :=
  clipAfterEncode ((assocGet enc.specials sotLit).getD UNDEF_TOKEN)
    ((assocGet enc.specials eotLit).getD UNDEF_TOKEN)
    (clipBody enc splitter allowed text)

/-- C7: CLIP `encode` always returns exactly 77 token ids, for every
encoder table, pre-tokenization splitter, allowed-special set and input
text (empty, whitespace-only, short or arbitrarily long). -/
theorem claim_C7 (enc : Bpe) (splitter : List Char → List (List Char))
    (allowed : List (List Char)) (text : List Char) :
    (clipEncode enc splitter allowed text).length = 77 := by
  simp only [clipEncode, clipAfterEncode, List.length_take, List.length_append,
    List.length_replicate, List.length_cons, List.singleton_append]
  omega

/-- A one-piece encoder for exercising the CLIP framing: byte `a` has rank
320, and the two CLIP specials at their real ranks. -/
def c2Enc : Bpe :=
  { encoder := [([0x61], 320)], specials := [(sotLit, 49406), (eotLit, 49407)] }

/-- A concrete stand-in for the CLIP pre-tokenization pattern: one fragment
`"a"` per letter `a` of the input. -/
def c2Split : List Char → List (List Char) :=
  fun s => (s.filter (fun c => decide (c = 'a'))).map (fun _ => ['a'])

/-- C2 (counterexample): with a 75-token body, CLIP `encode` returns
`[BOS] ++ body ++ [EOS]` — already of length 77 — and **no** pad token with
id 0 appears in the output, refuting "padding is always present". -/
theorem claim_C2_counterexample :
    clipEncode c2Enc c2Split [] (List.replicate 75 'a')
      = 49406 :: (List.replicate 75 320 ++ [49407]) ∧
    (0 : Nat) ∉ clipEncode c2Enc c2Split [] (List.replicate 75 'a') :=
  ⟨by decide, by decide⟩

/-- C2 (amended): CLIP `encode` returns BOS, then the body tokens, then EOS,
padded with id 0 to length exactly 77 and truncated to 77 if over; a pad
token with id 0 is present whenever the framed sequence `BOS ++ body ++ EOS`
is shorter than 77 (not always). -/
theorem claim_C2 (enc : Bpe) (splitter : List Char → List (List Char))
    (allowed : List (List Char)) (text : List Char) :
    clipEncode enc splitter allowed text
      = (([(assocGet enc.specials sotLit).getD UNDEF_TOKEN] ++
            clipBody enc splitter allowed text ++
            [(assocGet enc.specials eotLit).getD UNDEF_TOKEN]) ++
          List.replicate (77 - ((clipBody enc splitter allowed text).length + 2)) 0).take 77
    ∧ ((clipBody enc splitter allowed text).length + 2 < 77 →
        (0 : Nat) ∈ clipEncode enc splitter allowed text) := by
  refine ⟨rfl, fun h => ?_⟩
  show (0 : Nat) ∈ clipAfterEncode _ _ (clipBody enc splitter allowed text)
  unfold clipAfterEncode
  rw [List.take_of_length_le (by simp; omega)]
  exact List.mem_append.2 (Or.inr (List.mem_replicate.2 ⟨by omega, rfl⟩))

/-- Witness for C2: on the empty text the body is empty, the framed sequence
has length 2 < 77, and a pad token 0 indeed appears in the output. -/
theorem claim_C2_witness :
    (0 : Nat) ∈ clipEncode c2Enc c2Split [] [] :=
  (claim_C2 c2Enc c2Split [] []).2 (by decide)

/-! ## C1: resume position after an accepted special token -/

/-- Byte-identity vocabulary over ASCII (rank of byte `b` is `b`), with the
r50k special token `<|endoftext|>` at rank 50256. -/
def c1Enc : Bpe :=
  { encoder := (List.range 128).map (fun b => ([b], b)),
    specials := [("<|endoftext|>".toList, 50256)] }

/-- Single-character fragments, standing in for the r50k pattern (which
splits `"|endoftext|>"` into several fragments; one per character suffices to
exhibit the resume position). -/
def c1Split : List Char → List (List Char) :=
  fun s => s.map (fun c => [c])

/-- C1 (code evaluation at the failing input): after accepting the special
match `<|endoftext|>` at index 0, `encode` emits rank 50256 but resumes at
`nextSpecial.index + nextSpecial.length` — the length of the `exec` result
*array* (1, the pattern has no capture groups), not of the matched literal —
so the remaining 12 characters `"|endoftext|>"` are re-tokenized, and
`encodeWithSpecialTokens("<|endoftext|>")` is not the one-element `[50256]`. -/
theorem claim_C1 :
    bpeEncodeWithSpecialTokens c1Enc c1Split "<|endoftext|>".toList
      = [50256, 124, 101, 110, 100, 111, 102, 116, 101, 120, 116, 124, 62] ∧
    bpeEncodeWithSpecialTokens c1Enc c1Split "<|endoftext|>".toList ≠ [50256] :=
  ⟨by decide, by decide⟩

/-! ## C9: constructor duplicate-rank checks (`BpeEncoding.constructor`) -/

theorem assocGet_isSome_iff {α β : Type} [DecidableEq α] (m : List (α × β)) (k : α) :
    (assocGet m k).isSome ↔ k ∈ m.map (·.1) := by
  induction m with
  | nil => simp [assocGet]
  | cons e rest ih =>
    by_cases h : e.1 = k
    · simp [assocGet, List.find?, h]
    · simp only [assocGet, List.find?] at ih ⊢
      rw [show (decide (e.1 = k)) = false from by simp [h]]
      exact ih.trans (by simp [Ne.symm h])

/-- The first constructor loop: build `decoder` (rank → bytes), throwing on a
rank already present. -/
def buildDecoderGo (dec : List (Nat × List Nat)) :
    List (List Nat × Nat) → Except String (List (Nat × List Nat))
  | [] => .ok dec
  | e :: rest =>
    if (assocGet dec e.2).isSome then .error "Duplicate rank in encoder"
    else buildDecoderGo (dec ++ [(e.2, e.1)]) rest

/-- The second constructor loop: build `specialTokensDecoder`
(rank → UTF-8 bytes of the literal), throwing on a rank already present in
either decoder. -/
def buildSpecialGo (dec : List (Nat × List Nat)) (sdec : List (Nat × List Nat)) :
    List (List Char × Nat) → Except String (List (Nat × List Nat))
  | [] => .ok sdec
  | s :: rest =>
    if (assocGet dec s.2).isSome || (assocGet sdec s.2).isSome then
      .error "Duplicate rank in special tokens"
    else buildSpecialGo dec (sdec ++ [(s.2, utf8 s.1)]) rest

/-- The decoder-building part of the `BpeEncoding` constructor (the regex
global-flag check is outside the model). -/
def mkBpeDecoders (encoder : List (List Nat × Nat)) (specials : List (List Char × Nat)) :
    Except String (List (Nat × List Nat) × List (Nat × List Nat)) :=
  match buildDecoderGo [] encoder with
  | .error e => .error e
  | .ok dec =>
    match buildSpecialGo dec [] specials with
    | .error e => .error e
    | .ok sdec => .ok (dec, sdec)

theorem buildDecoderGo_ok :
    ∀ (l : List (List Nat × Nat)) (dec dec' : List (Nat × List Nat)),
      buildDecoderGo dec l = .ok dec' → dec' = dec ++ l.map (fun e => (e.2, e.1))
  | [], dec, dec', h => by
    simp only [buildDecoderGo] at h
    cases h
    simp
  | e :: rest, dec, dec', h => by
    simp only [buildDecoderGo] at h
    split at h
    · cases h
    · have := buildDecoderGo_ok rest _ _ h
      simpa using this

theorem buildDecoderGo_err :
    ∀ (l : List (List Nat × Nat)) (dec : List (Nat × List Nat)),
      (dec.map (·.1)).Nodup → ¬ ((dec.map (·.1)) ++ l.map (·.2)).Nodup →
      ∃ e, buildDecoderGo dec l = .error e
  | [], dec, hnd, hdup => by simp at hdup; exact absurd hnd hdup
  | e :: rest, dec, hnd, hdup => by
    by_cases h : (assocGet dec e.2).isSome
    · exact ⟨"Duplicate rank in encoder", by simp [buildDecoderGo, h]⟩
    · have hmem : e.2 ∉ dec.map (·.1) := fun hm => h ((assocGet_isSome_iff _ _).2 hm)
      have hnd' : ((dec ++ [(e.2, e.1)]).map (·.1)).Nodup := by
        rw [List.map_append]
        refine List.Nodup.append hnd (List.nodup_singleton _) ?_
        intro a ha hb
        simp only [List.map_cons, List.map_nil, List.mem_singleton] at hb
        subst hb
        exact hmem ha
      have hdup' : ¬ (((dec ++ [(e.2, e.1)]).map (·.1)) ++ rest.map (·.2)).Nodup := by
        intro hc
        apply hdup
        simpa [List.append_assoc] using hc
      obtain ⟨err, herr⟩ := buildDecoderGo_err rest (dec ++ [(e.2, e.1)]) hnd' hdup'
      exact ⟨err, by simp [buildDecoderGo, h, herr]⟩

theorem buildSpecialGo_ok :
    ∀ (l : List (List Char × Nat)) (dec sdec sdec' : List (Nat × List Nat)),
      buildSpecialGo dec sdec l = .ok sdec' →
      ∀ r, r ∈ sdec'.map (·.1) → r ∈ sdec.map (·.1) ∨ ¬ (assocGet dec r).isSome
  | [], dec, sdec, sdec', h => by
    simp only [buildSpecialGo] at h
    cases h
    exact fun r hr => Or.inl hr
  | s :: rest, dec, sdec, sdec', h => by
    simp only [buildSpecialGo] at h
    split at h
    · cases h
    · rename_i hchk
      rw [Bool.or_eq_true, not_or] at hchk
      intro r hr
      rcases buildSpecialGo_ok rest dec _ sdec' h r hr with hin | hno
      · simp only [List.map_append, List.mem_append, List.map_cons, List.map_nil,
          List.mem_singleton] at hin
        rcases hin with hin | rfl
        · exact Or.inl hin
        · exact Or.inr (by simpa using hchk.1)
      · exact Or.inr hno

theorem buildSpecialGo_err1 :
    ∀ (l : List (List Char × Nat)) (dec sdec : List (Nat × List Nat)),
      (∃ s ∈ l, (assocGet dec s.2).isSome) →
      ∃ e, buildSpecialGo dec sdec l = .error e
  | [], _, _, h => absurd h (by simp)
  | s :: rest, dec, sdec, h => by
    by_cases hc : ((assocGet dec s.2).isSome = true ∨ (assocGet sdec s.2).isSome = true)
    · exact ⟨"Duplicate rank in special tokens", by simp only [buildSpecialGo, Bool.or_eq_true]; rw [if_pos hc]⟩
    · have hc' := hc
      rw [not_or] at hc'
      obtain ⟨t, ht, hts⟩ := h
      rcases List.mem_cons.mp ht with rfl | ht'
      · exact absurd hts hc'.1
      · obtain ⟨err, herr⟩ := buildSpecialGo_err1 rest dec (sdec ++ [(s.2, utf8 s.1)]) ⟨t, ht', hts⟩
        refine ⟨err, ?_⟩
        simp only [buildSpecialGo, Bool.or_eq_true]
        rw [if_neg hc]
        exact herr

theorem buildSpecialGo_err2 :
    ∀ (l : List (List Char × Nat)) (dec sdec : List (Nat × List Nat)),
      (sdec.map (·.1)).Nodup → ¬ ((sdec.map (·.1)) ++ l.map (·.2)).Nodup →
      ∃ e, buildSpecialGo dec sdec l = .error e
  | [], _, sdec, hnd, hdup => by simp at hdup; exact absurd hnd hdup
  | s :: rest, dec, sdec, hnd, hdup => by
    by_cases hc : ((assocGet dec s.2).isSome = true ∨ (assocGet sdec s.2).isSome = true)
    · exact ⟨"Duplicate rank in special tokens", by simp only [buildSpecialGo, Bool.or_eq_true]; rw [if_pos hc]⟩
    · have hc' := hc
      rw [not_or] at hc'
      have hmem : s.2 ∉ sdec.map (·.1) := fun hm => hc'.2 ((assocGet_isSome_iff _ _).2 hm)
      have hnd' : ((sdec ++ [(s.2, utf8 s.1)]).map (·.1)).Nodup := by
        rw [List.map_append]
        refine List.Nodup.append hnd (List.nodup_singleton _) ?_
        intro a ha hb
        simp only [List.map_cons, List.map_nil, List.mem_singleton] at hb
        subst hb
        exact hmem ha
      have hdup' : ¬ (((sdec ++ [(s.2, utf8 s.1)]).map (·.1)) ++ rest.map (·.2)).Nodup := by
        intro hcn
        apply hdup
        simpa [List.append_assoc] using hcn
      obtain ⟨err, herr⟩ := buildSpecialGo_err2 rest dec _ hnd' hdup'
      exact ⟨err, by simp only [buildSpecialGo, Bool.or_eq_true]; rw [if_neg hc]; exact herr⟩

/-- C9: the `BpeEncoding` constructor fails with a duplicate-rank error
whenever two regular entries share a rank, or a special token's rank collides
with a regular or special rank; on success, `decoder` and
`specialTokensDecoder` have disjoint key sets. -/
theorem claim_C9 (encoder : List (List Nat × Nat)) (specials : List (List Char × Nat)) :
    (¬ (encoder.map (·.2)).Nodup → ∃ e, mkBpeDecoders encoder specials = .error e) ∧
    (((∃ s ∈ specials, s.2 ∈ encoder.map (·.2)) ∨ ¬ (specials.map (·.2)).Nodup) →
      ∃ e, mkBpeDecoders encoder specials = .error e) ∧
    (∀ dec sdec, mkBpeDecoders encoder specials = .ok (dec, sdec) →
      ∀ r, (assocGet dec r).isSome → ¬ (assocGet sdec r).isSome) := by
  refine ⟨fun hdup => ?_, fun hcol => ?_, fun dec sdec hok => ?_⟩
  · obtain ⟨e, he⟩ := buildDecoderGo_err encoder [] (by simp) (by simpa using hdup)
    exact ⟨e, by simp [mkBpeDecoders, he]⟩
  · cases hbd : buildDecoderGo [] encoder with
    | error e => exact ⟨e, by simp [mkBpeDecoders, hbd]⟩
    | ok d =>
      have hdec : d = encoder.map (fun e => (e.2, e.1)) := by
        simpa using buildDecoderGo_ok encoder [] d hbd
      have hkeys : d.map (·.1) = encoder.map (·.2) := by
        simp [hdec, Function.comp]
      rcases hcol with ⟨s, hs, hsr⟩ | hdups
      · obtain ⟨e, he⟩ := buildSpecialGo_err1 specials d []
          ⟨s, hs, (assocGet_isSome_iff _ _).2 (hkeys ▸ hsr)⟩
        exact ⟨e, by simp [mkBpeDecoders, hbd, he]⟩
      · obtain ⟨e, he⟩ := buildSpecialGo_err2 specials d [] (by simp) (by simpa using hdups)
        exact ⟨e, by simp [mkBpeDecoders, hbd, he]⟩
  · intro r hrdec hrs
    cases hbd : buildDecoderGo [] encoder with
    | error e => simp [mkBpeDecoders, hbd] at hok
    | ok d =>
      cases hbs : buildSpecialGo d [] specials with
      | error e => simp [mkBpeDecoders, hbd, hbs] at hok
      | ok q =>
        simp only [mkBpeDecoders, hbd, hbs, Except.ok.injEq, Prod.mk.injEq] at hok
        obtain ⟨h1, h2⟩ := hok
        subst h1
        subst h2
        rcases buildSpecialGo_ok specials d [] q hbs r
            ((assocGet_isSome_iff _ _).1 hrs) with hin | hno
        · simp at hin
        · exact hno hrdec

/-- Witness for C9: a duplicate regular rank makes the constructor fail. -/
theorem claim_C9_witness :
    ∃ e, mkBpeDecoders [([0], 1), ([1], 1)] [] = .error e :=
  (claim_C9 [([0], 1), ([1], 1)] []).1 (by decide)

/-! ## UTF-8 decoding (`TextDecoder`)

A byte-level decoder used by `Unigram.decode` on runs of `<0xHH>` tokens.
On canonical (encoder-produced) sequences it inverts `utf8`; malformed input
yields replacement characters (the WHATWG recovery detail of re-examining an
unexpected byte is simplified away — no theorem below depends on it). -/

def REPL : Char := '�'

def mkChar (n : Nat) : Char := Char.ofNat n

/-- State-machine UTF-8 decoder: `needed` continuation bytes outstanding,
`acc` the partial scalar value. -/
def u8go : Nat → Nat → List Nat → List Char
  | 0, _, [] => []
  | _ + 1, _, [] => [REPL]
  | 0, _, b :: rest =>
    if b < 0x80 then mkChar b :: u8go 0 0 rest
    else if b < 0xC2 then REPL :: u8go 0 0 rest
    else if b < 0xE0 then u8go 1 (b - 0xC0) rest
    else if b < 0xF0 then u8go 2 (b - 0xE0) rest
    else if b < 0xF5 then u8go 3 (b - 0xF0) rest
    else REPL :: u8go 0 0 rest
  | needed + 1, acc, b :: rest =>
    if 0x80 ≤ b ∧ b < 0xC0 then
      if needed = 0 then mkChar (acc * 64 + (b - 0x80)) :: u8go 0 0 rest
      else u8go needed (acc * 64 + (b - 0x80)) rest
    else REPL :: u8go 0 0 rest

/-- `new TextDecoder().decode(bytes)`. -/
def utf8Decode (bytes : List Nat) : List Char := u8go 0 0 bytes

/-! ## SentencePiece Unigram tokenizer (`Unigram`) -/

/-- `ModelProto_SentencePiece_Type`. -/
inductive PieceType where
  | NORMAL | UNKNOWN | CONTROL | USER_DEFINED | BYTE | UNUSED
  deriving DecidableEq, Repr

/-- One entry of `model.pieces`. -/
structure SPPiece where
  piece : List Char
  score : ℚ
  type : PieceType
  deriving DecidableEq, Repr

/-- The `ModelProto` fields consumed by the `Unigram` constructor, with the
`??`-defaults already applied. -/
structure SPModel where
  pieces : List SPPiece
  unkId : Nat := 0
  bosId : Nat := 1
  eosId : Nat := 2
  addDummy : Bool := true
  removeExtraWs : Bool := true
  deriving DecidableEq, Repr

/-- Trie node: children keyed by code point, optional `(id, score)` token. -/
inductive Trie where
  | node (token : Option (Nat × ℚ)) (children : List (Char × Trie))

def Trie.token : Trie → Option (Nat × ℚ)
  | .node t _ => t

def Trie.children : Trie → List (Char × Trie)
  | .node _ c => c

/-- Replace the value at an existing key (JS `Map.set` on a present key). -/
def assocSet {α β : Type} [DecidableEq α] (m : List (α × β)) (k : α) (v : β) :
    List (α × β) :=
  m.map (fun e => if e.1 = k then (k, v) else e)

/-- `Unigram.#insertIntoTrie`. -/
def trieInsert : Trie → List Char → Nat → ℚ → Trie
  | .node _ children, [], id, score => .node (some (id, score)) children
  | .node tok children, c :: rest, id, score =>
    match assocGet children c with
    | some child => .node tok (assocSet children c (trieInsert child rest id score))
    | none => .node tok (children ++ [(c, trieInsert (.node none []) rest id score)])

/-- `^<0x([0-9A-Fa-f]{2})>$`: the byte value of a `<0xHH>` piece string. -/
def hexDigitVal (c : Char) : Option Nat :=
  if '0' ≤ c ∧ c ≤ '9' then some (c.toNat - 48)
  else if 'A' ≤ c ∧ c ≤ 'F' then some (c.toNat - 55)
  else if 'a' ≤ c ∧ c ≤ 'f' then some (c.toNat - 87)
  else none

def byteTokenVal : List Char → Option Nat
  | ['<', '0', 'x', h1, h2, '>'] =>
    match hexDigitVal h1, hexDigitVal h2 with
    | some a, some b => some (16 * a + b)
    | _, _ => none
  | _ => none

/-- The constructed `Unigram` instance's fields.  `byteFallback` is keyed by
byte value (the source keys by its two-lowercase-hex-digit string, a
bijective encoding of the byte). -/
structure Unigram where
  trie : Trie
  decoder : List (Nat × List Char)
  byteFallback : List (Nat × Nat)
  unkId : Nat
  bosId : Nat
  eosId : Nat
  addDummy : Bool
  removeExtraWs : Bool

/-- `Map.set`: update in place if present, else append. -/
def assocPut {α β : Type} [DecidableEq α] (m : List (α × β)) (k : α) (v : β) :
    List (α × β) :=
  if (assocGet m k).isSome then assocSet m k v else m ++ [(k, v)]

/-- The `Unigram` constructor: walk `model.pieces`, registering every piece
in `decoder`, `BYTE` pieces in `byteFallback`, and NORMAL/USER_DEFINED
pieces in the trie. -/
def unigramOfModel (m : SPModel) : Unigram :=
  let step := fun (st : Trie × List (Nat × List Char) × List (Nat × Nat))
      (e : Nat × SPPiece) =>
    let (i, p) := e
    let dec := assocPut st.2.1 i p.piece
    if p.type = PieceType.BYTE then
      match byteTokenVal p.piece with
      | some b => (st.1, dec, assocPut st.2.2 b i)
      | none => (st.1, dec, st.2.2)
    else if p.type = PieceType.NORMAL ∨ p.type = PieceType.USER_DEFINED then
      (trieInsert st.1 p.piece i p.score, dec, st.2.2)
    else (st.1, dec, st.2.2)
  let built := m.pieces.enum.foldl step (Trie.node none [], [], [])
  { trie := built.1, decoder := built.2.1, byteFallback := built.2.2,
    unkId := m.unkId, bosId := m.bosId, eosId := m.eosId,
    addDummy := m.addDummy, removeExtraWs := m.removeExtraWs }

/-- `Unigram.#findPiecesAt(text, i)` on the suffix `text.drop i`: walk the
trie, yielding `(consumed-length, id, score)` at every terminal node passed
(so `end = i + consumed-length`). -/
def findPieces : Trie → List Char → List (Nat × Nat × ℚ)
  | _, [] => []
  | t, c :: rest =>
    match assocGet t.children c with
    | none => []
    | some child =>
      (match child.token with
       | some (id, sc) => [(1, id, sc)]
       | none => []) ++
      (findPieces child rest).map (fun m => (m.1 + 1, m.2.1, m.2.2))

/-- The SentencePiece meta symbol `▁` (U+2581). -/
def SPIECE : Char := '▁'

/-- `Unigram.#normalize`. -/
def unigramNormalize (u : Unigram) (text : List Char) : List Char :=
  let t1 := if u.removeExtraWs then trimWs (collapseWs text) else text
  if t1.length = 0 then []
  else
    let t2 := if u.addDummy then ' ' :: t1 else t1
    t2.map (fun c => if c = ' ' then SPIECE else c)

/-- Viterbi state: `best[i]` (`none` = `-Infinity`) and `prev[i]`
(`none` = `null`; otherwise `(start, token ids)` of the step reaching `i`). -/
structure VState where
  best : List (Option ℚ)
  prev : List (Option (Nat × List Nat))

/-- `newScore > best[end]` (everything beats `-Infinity`). -/
def beats (a : ℚ) : Option ℚ → Bool
  | none => true
  | some x => decide (x < a)

/-- One match update of the inner relaxation loop (`end = i + m.1`,
`newScore = bi + m.2.2`). -/
def relaxStep (i : Nat) (bi : ℚ) (st : VState) (m : Nat × Nat × ℚ) : VState :=
  if beats (bi + m.2.2) (st.best.getD (i + m.1) none) then
    { best := st.best.set (i + m.1) (some (bi + m.2.2)),
      prev := st.prev.set (i + m.1) (some (i, [m.2.1])) }
  else st

/-- The inner `for (const [end, id, score] of matches)` loop at position `i`
with `best[i] = bi`. -/
def relax (i : Nat) (bi : ℚ) (ms : List (Nat × Nat × ℚ)) (st : VState) : VState :=
  ms.foldl (relaxStep i bi) st

/-- UTF-8 bytes of the code point at the fallback position, each resolved
through `byteFallback` (or `unkId` on a miss). -/
def fallbackTokens (u : Unigram) (c : Char) : List Nat :=
  (utf8Char c).map (fun b => (assocGet u.byteFallback b).getD u.unkId)

/-- One iteration of the Viterbi outer loop at position `i`: skip if
`best[i] === -Infinity`; relax all trie matches; then byte-fallback into
`i + 1` only if `prev[i + 1]` is still unset. -/
def iterStep (u : Unigram) (text : List Char) (i : Nat) (st : VState) : VState :=
  match st.best.getD i none with
  | none => st
  | some bi =>
    let st1 := relax i bi (findPieces u.trie (text.drop i)) st
    if (st1.prev.getD (i + 1) none).isSome then st1
    else
      let bts := fallbackTokens u (text.getD i default)
      if 0 < bts.length then
        { best := st1.best.set (i + 1) (some bi),
          prev := st1.prev.set (i + 1) (some (i, bts)) }
      else st1

/-- `for (let i = 0; i < n; i++)`, as `k` remaining iterations from `i`. -/
def viterbiLoop (u : Unigram) (text : List Char) : Nat → Nat → VState → VState
  | 0, _, st => st
  | k + 1, i, st => viterbiLoop u text k (i + 1) (iterStep u text i st)

/-- The filled DP arrays for the (already normalized) `text`. -/
def viterbiRun (u : Unigram) (text : List Char) : VState :=
  viterbiLoop u text text.length 0
    ⟨some 0 :: List.replicate text.length none, List.replicate (text.length + 1) none⟩

/-- Backtracking from `pos`, accumulating token ids in reverse emission
order (the caller reverses).  The `prev[pos] === null` branch is the
defensive per-byte fallback of the source; `pos` strictly decreases, so
`n + 1` fuel is enough. -/
def backtrackGo (u : Unigram) (text : List Char)
    (prev : List (Option (Nat × List Nat))) : Nat → Nat → List Nat → List Nat
  | 0, _, acc => acc
  | _ + 1, 0, acc => acc
  | fuel + 1, pos + 1, acc =>
    match prev.getD (pos + 1) none with
    | none =>
      backtrackGo u text prev fuel pos
        (acc ++ (fallbackTokens u (text.getD pos default)).reverse)
    | some (start, ids) =>
      backtrackGo u text prev fuel start (acc ++ ids.reverse)

/-- `Unigram.encode`. -/
def unigramEncode (u : Unigram) (text : List Char) : List Nat :=
  let t := unigramNormalize u text
  if t.length = 0 then []
  else
    let st := viterbiRun u t
    (backtrackGo u t st.prev (t.length + 1) t.length []).reverse

/-- Classification of a token id during decode. -/
inductive DecTag where
  | unk
  | byte (b : Nat)
  | piece (p : List Char)
  deriving DecidableEq, Repr

def tagTok (dec : List (Nat × List Char)) (id : Nat) : DecTag :=
  match assocGet dec id with
  | none => .unk
  | some p =>
    match byteTokenVal p with
    | some b => .byte b
    | none => .piece p

/-- Grouping pass of `Unigram.decode`: unknown ids yield `"�"`, maximal runs
of byte tokens are UTF-8-decoded as one block, other pieces pass through.
The first argument holds the byte run being collected, in reverse. -/
def decodeGroups : Option (List Nat) → List DecTag → List (List Char)
  | none, [] => []
  | some run, [] => [utf8Decode run.reverse]
  | none, .byte b :: rest => decodeGroups (some [b]) rest
  | none, .unk :: rest => ['�'] :: decodeGroups none rest
  | none, .piece p :: rest => p :: decodeGroups none rest
  | some run, .byte b :: rest => decodeGroups (some (b :: run)) rest
  | some run, .unk :: rest =>
    utf8Decode run.reverse :: ['�'] :: decodeGroups none rest
  | some run, .piece p :: rest =>
    utf8Decode run.reverse :: p :: decodeGroups none rest

/-- `Unigram.decode`. -/
def unigramDecode (u : Unigram) (tokens : List Nat) : List Char :=
  let joined := (decodeGroups none (tokens.map (tagTok u.decoder))).flatten
  let replaced := joined.map (fun c => if c = SPIECE then ' ' else c)
  if u.addDummy then
    match replaced with
    | ' ' :: rest => rest
    | l => l
  else replaced

/-- The C6 scenario model: a piece `"ab"` with a (negative) score, byte
pieces for `a` and `b`, no dummy prefix. -/
def c6Model (s : ℚ) : SPModel :=
  { pieces :=
      [⟨"<unk>".toList, 0, .UNKNOWN⟩,
       ⟨"ab".toList, s, .NORMAL⟩,
       ⟨"<0x61>".toList, 0, .BYTE⟩,
       ⟨"<0x62>".toList, 0, .BYTE⟩],
    addDummy := false, removeExtraWs := false }

/-! ## Viterbi correctness infrastructure (C5, C6) -/

/-- Order on DP cell values, `none` being `-Infinity`. -/
def oLE : Option ℚ → Option ℚ → Prop
  | none, _ => True
  | some _, none => False
  | some v, some w => v ≤ w

theorem oLE_refl (a : Option ℚ) : oLE a a := by
  cases a with
  | none => trivial
  | some v => exact le_refl v

theorem oLE_trans {a b c : Option ℚ} (h1 : oLE a b) (h2 : oLE b c) : oLE a c := by
  cases a with
  | none => trivial
  | some v =>
    cases b with
    | none => exact absurd h1 (by simp [oLE])
    | some w =>
      cases c with
      | none => exact absurd h2 (by simp [oLE])
      | some x => exact le_trans h1 h2

theorem utf8Char_ne_nil (c : Char) : utf8Char c ≠ [] := by
  simp only [utf8Char]
  split_ifs <;> simp

theorem fallbackTokens_ne_nil (u : Unigram) (c : Char) : fallbackTokens u c ≠ [] := by
  unfold fallbackTokens
  intro h
  exact utf8Char_ne_nil c (List.map_eq_nil_iff.mp h)

/-- Every match returned by the trie walk consumes between 1 and
`l.length` code points. -/
theorem findPieces_len_bound :
    ∀ (t : Trie) (l : List Char) (m : Nat × Nat × ℚ), m ∈ findPieces t l →
      1 ≤ m.1 ∧ m.1 ≤ l.length
  | t, [], m, h => by simp [findPieces] at h
  | t, c :: rest, m, h => by
    simp only [findPieces] at h
    cases hch : assocGet t.children c with
    | none => rw [hch] at h; simp at h
    | some child =>
      rw [hch] at h
      rcases List.mem_append.mp h with h1 | h2
      · cases htok : child.token with
        | none => rw [htok] at h1; simp at h1
        | some p =>
          rw [htok] at h1
          simp at h1
          subst h1
          simp
      · obtain ⟨m', hm', rfl⟩ := List.mem_map.mp h2
        have := findPieces_len_bound child rest m' hm'
        simp only [List.length_cons]
        omega

theorem getD_set_self {α : Type} (l : List α) (i : Nat) (v d : α) (h : i < l.length) :
    (l.set i v).getD i d = v := by
  simp [List.getD, List.getElem?_set_self, h]

theorem getD_set_ne {α : Type} (l : List α) {i j : Nat} (v : α) (d : α) (h : i ≠ j) :
    (l.set i v).getD j d = l.getD j d := by
  simp [List.getD, List.getElem?_set_ne, h]

/-- A valid segmentation of (normalized) `text` from position 0 to `pos`,
carrying the emitted token ids and the total score.  `bound` restricts step
start positions (used for the loop induction; with `bound = text.length` it
is no restriction, since no step can start at or beyond `text.length`).
Byte-fallback steps score 0 and are valid only where no vocabulary piece
ends (the byte-fallback policy). -/
inductive Seg (u : Unigram) (text : List Char) (bound : Nat) :
    Nat → List Nat → ℚ → Prop where
  | nil : Seg u text bound 0 [] 0
  | piece {i : Nat} {toks : List Nat} {sc : ℚ} {len id : Nat} {psc : ℚ} :
      Seg u text bound i toks sc →
      i < bound →
      (len, id, psc) ∈ findPieces u.trie (text.drop i) →
      Seg u text bound (i + len) (toks ++ [id]) (sc + psc)
  | fall {i : Nat} {toks : List Nat} {sc : ℚ} :
      Seg u text bound i toks sc →
      i < bound →
      i < text.length →
      (∀ j m, m ∈ findPieces u.trie (text.drop j) → j + m.1 ≠ i + 1) →
      Seg u text bound (i + 1) (toks ++ fallbackTokens u (text.getD i default)) sc

theorem Seg_mono {u : Unigram} {text : List Char} {b b' : Nat} (hb : b ≤ b') :
    ∀ {pos toks sc}, Seg u text b pos toks sc → Seg u text b' pos toks sc := by
  intro pos toks sc h
  induction h with
  | nil => exact .nil
  | piece hs hi hm ih => exact .piece ih (lt_of_lt_of_le hi hb) hm
  | fall hs hi hn hall ih => exact .fall ih (lt_of_lt_of_le hi hb) hn hall

theorem Seg_zero_aux {u : Unigram} {text : List Char} {b pos : Nat} {toks sc} :
    Seg u text b pos toks sc → pos = 0 → toks = [] ∧ sc = 0 := by
  intro h
  cases h with
  | nil => exact fun _ => ⟨rfl, rfl⟩
  | piece hs hi hm =>
    intro hp
    have := (findPieces_len_bound _ _ _ hm).1
    omega
  | fall hs hi hn hall => intro hp; omega

/-- Only the empty segmentation reaches position 0. -/
theorem Seg_zero {u : Unigram} {text : List Char} {b : Nat} {toks sc} :
    Seg u text b 0 toks sc → toks = [] ∧ sc = 0 :=
  fun h => Seg_zero_aux h rfl

/-- Bound-0 segmentations are empty. -/
theorem Seg_bound_zero {u : Unigram} {text : List Char} {pos toks sc} :
    Seg u text 0 pos toks sc → pos = 0 ∧ toks = [] ∧ sc = 0 := by
  intro h
  cases h with
  | nil => exact ⟨rfl, rfl, rfl⟩
  | piece hs hi hm => omega
  | fall hs hi hn hall => omega

/-- Positions of a segmentation never exceed the text length. -/
theorem Seg_pos_le {u : Unigram} {text : List Char} {b pos toks sc} :
    Seg u text b pos toks sc → pos ≤ text.length := by
  intro h
  induction h with
  | nil => exact Nat.zero_le _
  | piece hs hi hm ih =>
    rename_i i toks' sc' len id psc
    have := (findPieces_len_bound _ _ _ hm).2
    simp only [List.length_drop] at this
    omega
  | fall hs hi hn hall ih => omega

/-- Complete description of the relaxation fold at position `i` with source
value `bi`: lengths are preserved; every DP cell is either untouched or was
written by one of the processed matches (improving on its old value); and no
processed match beats its cell afterwards. -/
theorem relax_master (i : Nat) (bi : ℚ) :
    ∀ (ms : List (Nat × Nat × ℚ)) (st : VState),
      st.prev.length = st.best.length →
      (∀ m ∈ ms, i + m.1 < st.best.length) →
      ((relax i bi ms st).best.length = st.best.length ∧
       (relax i bi ms st).prev.length = st.prev.length) ∧
      (∀ e,
        ((relax i bi ms st).best.getD e none = st.best.getD e none ∧
         (relax i bi ms st).prev.getD e none = st.prev.getD e none) ∨
        (∃ m ∈ ms, e = i + m.1 ∧
         (relax i bi ms st).best.getD e none = some (bi + m.2.2) ∧
         (relax i bi ms st).prev.getD e none = some (i, [m.2.1]) ∧
         oLE (st.best.getD e none) (some (bi + m.2.2)))) ∧
      (∀ m ∈ ms, oLE (some (bi + m.2.2)) ((relax i bi ms st).best.getD (i + m.1) none))
  | [], st, hlen, hms => by
    refine ⟨⟨rfl, rfl⟩, fun e => Or.inl ⟨rfl, rfl⟩, fun m hm => absurd hm (by simp)⟩
  | m :: ms, st, hlen, hms => by
    have hcons : relax i bi (m :: ms) st = relax i bi ms (relaxStep i bi st m) := rfl
    have hsl : (relaxStep i bi st m).best.length = st.best.length ∧
        (relaxStep i bi st m).prev.length = st.prev.length := by
      unfold relaxStep
      split
      · exact ⟨List.length_set .., List.length_set ..⟩
      · exact ⟨rfl, rfl⟩
    have hmb : i + m.1 < st.best.length := hms m (by simp)
    -- behavior of the single step at each cell
    have hstep : ∀ e,
        ((relaxStep i bi st m).best.getD e none = st.best.getD e none ∧
         (relaxStep i bi st m).prev.getD e none = st.prev.getD e none) ∨
        (e = i + m.1 ∧
         (relaxStep i bi st m).best.getD e none = some (bi + m.2.2) ∧
         (relaxStep i bi st m).prev.getD e none = some (i, [m.2.1]) ∧
         oLE (st.best.getD e none) (some (bi + m.2.2))) := by
      intro e
      unfold relaxStep
      split
      · rename_i hbeats
        by_cases he : e = i + m.1
        · subst he
          refine Or.inr ⟨rfl, ?_, ?_, ?_⟩
          · exact getD_set_self _ _ _ _ hmb
          · exact getD_set_self _ _ _ _ (by omega)
          · revert hbeats
            unfold beats
            cases st.best.getD (i + m.1) none with
            | none => intro; trivial
            | some x => intro hx; exact le_of_lt (by exact_mod_cast of_decide_eq_true hx)
        · exact Or.inl ⟨getD_set_ne _ _ _ (fun h => he h.symm),
            getD_set_ne _ _ _ (fun h => he h.symm)⟩
      · exact Or.inl ⟨rfl, rfl⟩
    -- when the step does not write, the cell already dominates the match
    have hnostep : ¬ (beats (bi + m.2.2) (st.best.getD (i + m.1) none) = true) →
        oLE (some (bi + m.2.2)) (st.best.getD (i + m.1) none) := by
      intro hnb
      unfold beats at hnb
      cases hsb : st.best.getD (i + m.1) none with
      | none => rw [hsb] at hnb; exact absurd rfl hnb
      | some x =>
        rw [hsb] at hnb
        have : ¬ (x < bi + m.2.2) := fun hlt => hnb (by exact_mod_cast decide_eq_true hlt)
        exact le_of_not_lt this
    obtain ⟨ih_len, ih_cell, ih_comp⟩ :=
      relax_master i bi ms (relaxStep i bi st m)
        (by rw [hsl.1, hsl.2]; exact hlen)
        (by intro m' hm'; rw [hsl.1]; exact hms m' (by simp [hm']))
    -- monotonicity of the tail fold
    have hmono : ∀ e, oLE ((relaxStep i bi st m).best.getD e none)
        ((relax i bi ms (relaxStep i bi st m)).best.getD e none) := by
      intro e
      rcases ih_cell e with ⟨hb, _⟩ | ⟨m', _, _, hb, _, hle⟩
      · rw [hb]; exact oLE_refl _
      · rw [hb]; exact hle
    rw [hcons]
    refine ⟨⟨by rw [ih_len.1, hsl.1], by rw [ih_len.2, hsl.2]⟩, fun e => ?_, fun m' hm' => ?_⟩
    · rcases ih_cell e with ⟨hb, hp⟩ | ⟨m', hm', he, hb, hp, hle⟩
      · rcases hstep e with ⟨hb0, hp0⟩ | ⟨he0, hb0, hp0, hle0⟩
        · exact Or.inl ⟨by rw [hb, hb0], by rw [hp, hp0]⟩
        · exact Or.inr ⟨m, by simp, he0, by rw [hb, hb0], by rw [hp, hp0], hle0⟩
      · refine Or.inr ⟨m', by simp [hm'], he, hb, hp, ?_⟩
        rcases hstep e with ⟨hb0, _⟩ | ⟨_, hb0, _, hle0⟩
        · rw [← hb0]; exact hle
        · rw [hb0] at hle
          exact oLE_trans hle0 hle
    · rcases List.mem_cons.mp hm' with rfl | hm''
      · by_cases hbeats : beats (bi + m'.2.2) (st.best.getD (i + m'.1) none) = true
        · have hw : (relaxStep i bi st m').best.getD (i + m'.1) none = some (bi + m'.2.2) := by
            unfold relaxStep
            rw [if_pos hbeats]
            exact getD_set_self _ _ _ _ hmb
          have := hmono (i + m'.1)
          rw [hw] at this
          exact this
        · have hle0 := hnostep hbeats
          have heq : (relaxStep i bi st m').best.getD (i + m'.1) none
              = st.best.getD (i + m'.1) none := by
            unfold relaxStep
            rw [if_neg hbeats]
          exact oLE_trans hle0 (by rw [← heq]; exact hmono (i + m'.1))
      · exact ih_comp m' hm''

/-- Decompose a segmentation bounded by `k + 1`: either every step starts
below `k`, or it ends with a single step (piece or fallback) starting
exactly at `k`, preceded by a `k`-bounded segmentation reaching `k`. -/
theorem Seg_succ {u : Unigram} {text : List Char} {k pos : Nat} {toks : List Nat} {sc : ℚ} :
    Seg u text (k + 1) pos toks sc →
    Seg u text k pos toks sc ∨
    (∃ toks₀ sc₀, Seg u text k k toks₀ sc₀ ∧
      ((∃ len id psc, (len, id, psc) ∈ findPieces u.trie (text.drop k) ∧
          pos = k + len ∧ toks = toks₀ ++ [id] ∧ sc = sc₀ + psc) ∨
       (pos = k + 1 ∧ k < text.length ∧
          (∀ j m, m ∈ findPieces u.trie (text.drop j) → j + m.1 ≠ k + 1) ∧
          toks = toks₀ ++ fallbackTokens u (text.getD k default) ∧ sc = sc₀))) := by
  intro h
  induction h with
  | nil => exact Or.inl .nil
  | piece hs hik hm ih =>
    rename_i i toks₀ sc₀ len id psc
    rcases ih with hL | ⟨t0, s0, hpre, hstep⟩
    · by_cases hik' : i < k
      · exact Or.inl (.piece hL hik' hm)
      · have hik'' : i = k := by omega
        subst hik''
        exact Or.inr ⟨toks₀, sc₀, hL, Or.inl ⟨len, id, psc, hm, rfl, rfl, rfl⟩⟩
    · exfalso
      rcases hstep with ⟨len', id', psc', hm', hpos, _, _⟩ | ⟨hpos, _, _, _, _⟩
      · have := (findPieces_len_bound _ _ _ hm').1
        omega
      · omega
  | fall hs hik hn hall ih =>
    rename_i i toks₀ sc₀
    rcases ih with hL | ⟨t0, s0, hpre, hstep⟩
    · by_cases hik' : i < k
      · exact Or.inl (.fall hL hik' hn hall)
      · have hik'' : i = k := by omega
        subst hik''
        exact Or.inr ⟨toks₀, sc₀, hL, Or.inr ⟨rfl, hn, hall, rfl, rfl⟩⟩
    · exfalso
      rcases hstep with ⟨len', id', psc', hm', hpos, _, _⟩ | ⟨hpos, _, _, _, _⟩
      · have := (findPieces_len_bound _ _ _ hm').1
        omega
      · omega

/-- The loop invariant of the Viterbi DP, after all iterations `< k` have
run: array bounds, position 0 pinned, everything up to `k` reached,
`best`/`prev` set together, every `best` value realized by a valid
`k`-bounded segmentation, no such segmentation beats `best`, and every
`prev` record is a real (piece or policy-respecting fallback) step whose
score links the two cells. -/
structure Inv (u : Unigram) (text : List Char) (k : Nat) (st : VState) : Prop where
  lenB : st.best.length = text.length + 1
  lenP : st.prev.length = text.length + 1
  zeroB : st.best.getD 0 none = some 0
  zeroP : st.prev.getD 0 none = none
  reach : ∀ e, e ≤ k → e ≤ text.length → (st.best.getD e none).isSome
  someIff : ∀ e, 1 ≤ e → ((st.best.getD e none).isSome ↔ (st.prev.getD e none).isSome)
  sound : ∀ e v, st.best.getD e none = some v → ∃ toks, Seg u text k e toks v
  comp : ∀ e toks sc, Seg u text k e toks sc → oLE (some sc) (st.best.getD e none)
  prevSpec : ∀ e j ids, st.prev.getD e none = some (j, ids) →
      j < k ∧ j < e ∧ ∃ vj ve, st.best.getD j none = some vj ∧
        st.best.getD e none = some ve ∧
        ((∃ len id psc, (len, id, psc) ∈ findPieces u.trie (text.drop j) ∧ j + len = e ∧
            ids = [id] ∧ ve = vj + psc) ∨
         (e = j + 1 ∧ j < text.length ∧ ids = fallbackTokens u (text.getD j default) ∧
            ve = vj ∧ (∀ j' m, m ∈ findPieces u.trie (text.drop j') → j' + m.1 ≠ e)))

theorem oLE_someMono {a b : Option ℚ} (ha : a.isSome) (h : oLE a b) : b.isSome := by
  cases a with
  | none => cases ha
  | some v =>
    cases b with
    | none => exact absurd h (by simp [oLE])
    | some w => rfl

/-- One Viterbi iteration below the text length preserves the invariant,
advancing the processed bound. -/
theorem iterStep_inv {u : Unigram} {text : List Char} {i : Nat} {st : VState}
    (hi : i < text.length) (H : Inv u text i st) :
    Inv u text (i + 1) (iterStep u text i st) := by
  obtain ⟨bi, hbi⟩ := Option.isSome_iff_exists.mp (H.reach i le_rfl (le_of_lt hi))
  have hlen' : st.prev.length = st.best.length := by rw [H.lenP, H.lenB]
  have hmsb : ∀ m ∈ findPieces u.trie (text.drop i), i + m.1 < st.best.length := by
    intro m hm
    have h1 := (findPieces_len_bound _ _ _ hm).2
    rw [H.lenB]
    simp only [List.length_drop] at h1
    omega
  obtain ⟨⟨rlenB, rlenP⟩, rcell, rcomp⟩ :=
    relax_master i bi (findPieces u.trie (text.drop i)) st hlen' hmsb
  set ms := findPieces u.trie (text.drop i) with hmsdef
  set st1 := relax i bi ms st with hst1def
  have st1_mono : ∀ e, oLE (st.best.getD e none) (st1.best.getD e none) := by
    intro e
    rcases rcell e with ⟨hb, _⟩ | ⟨m, _, _, hb, _, hle⟩
    · rw [hb]; exact oLE_refl _
    · rw [hb]; exact hle
  have st1_someMonoP : ∀ e, (st.prev.getD e none).isSome → (st1.prev.getD e none).isSome := by
    intro e h
    rcases rcell e with ⟨_, hp⟩ | ⟨m, _, _, _, hp, _⟩
    · rw [hp]; exact h
    · rw [hp]; rfl
  have st1_low : ∀ e, e ≤ i →
      st1.best.getD e none = st.best.getD e none ∧
      st1.prev.getD e none = st.prev.getD e none := by
    intro e he
    rcases rcell e with h | ⟨m, hm, hemem, _, _, _⟩
    · exact h
    · exfalso
      have := (findPieces_len_bound _ _ _ hm).1
      omega
  have st1_bi : st1.best.getD i none = some bi := by rw [(st1_low i le_rfl).1, hbi]
  have st1_someIff : ∀ e, 1 ≤ e →
      ((st1.best.getD e none).isSome ↔ (st1.prev.getD e none).isSome) := by
    intro e he
    rcases rcell e with ⟨hb, hp⟩ | ⟨m, _, _, hb, hp, _⟩
    · rw [hb, hp]; exact H.someIff e he
    · rw [hb, hp]; simp
  have st1_sound : ∀ e v, st1.best.getD e none = some v →
      ∃ toks, Seg u text (i + 1) e toks v := by
    intro e v hv
    rcases rcell e with ⟨hb, _⟩ | ⟨m, hm, hemem, hb, _, _⟩
    · rw [hb] at hv
      obtain ⟨toks, ht⟩ := H.sound e v hv
      exact ⟨toks, Seg_mono (Nat.le_succ i) ht⟩
    · rw [hb] at hv
      injection hv with hv'
      obtain ⟨toks₀, ht₀⟩ := H.sound i bi hbi
      refine ⟨toks₀ ++ [m.2.1], ?_⟩
      have hmem : (m.1, m.2.1, m.2.2) ∈ ms := by
        have : (m.1, m.2.1, m.2.2) = m := rfl
        rw [this]
        exact hm
      have hseg := Seg.piece (Seg_mono (Nat.le_succ i) ht₀) (Nat.lt_succ_self i) hmem
      rw [hemem, ← hv']
      exact hseg
  have st1_prevSpec : ∀ e j ids, st1.prev.getD e none = some (j, ids) →
      (j < i ∨ (j = i ∧ ∃ len id psc, (len, id, psc) ∈ ms ∧ j + len = e ∧ ids = [id])) ∧
      j < e ∧ ∃ vj ve, st1.best.getD j none = some vj ∧ st1.best.getD e none = some ve ∧
        ((∃ len id psc, (len, id, psc) ∈ findPieces u.trie (text.drop j) ∧ j + len = e ∧
            ids = [id] ∧ ve = vj + psc) ∨
         (e = j + 1 ∧ j < text.length ∧ ids = fallbackTokens u (text.getD j default) ∧
            ve = vj ∧ (∀ j' m, m ∈ findPieces u.trie (text.drop j') → j' + m.1 ≠ e))) := by
    intro e j ids hrec
    rcases rcell e with ⟨hb, hp⟩ | ⟨m, hm, hemem, hb, hp, _⟩
    · rw [hp] at hrec
      obtain ⟨hjk, hje, vj, ve, hvj, hve, hcase⟩ := H.prevSpec e j ids hrec
      refine ⟨Or.inl hjk, hje, vj, ve, ?_, ?_, hcase⟩
      · rw [(st1_low j (by omega)).1]; exact hvj
      · rw [hb]; exact hve
    · rw [hp] at hrec
      injection hrec with hrec1
      obtain ⟨rfl, rfl⟩ := Prod.mk.injEq .. ▸ And.intro (congrArg Prod.fst hrec1) (congrArg Prod.snd hrec1)
      have hm1 := (findPieces_len_bound _ _ _ hm).1
      have hmem : (m.1, m.2.1, m.2.2) ∈ ms := hm
      refine ⟨Or.inr ⟨rfl, m.1, m.2.1, m.2.2, hmem, hemem.symm, rfl⟩, by omega,
        bi, bi + m.2.2, st1_bi, by rw [hb], Or.inl ⟨m.1, m.2.1, m.2.2, hmem, hemem.symm, rfl, rfl⟩⟩
  have hnomatch : st1.prev.getD (i + 1) none = none →
      ∀ j' m, m ∈ findPieces u.trie (text.drop j') → j' + m.1 ≠ i + 1 := by
    intro hnone j' m hm' heq
    have hlen1 := (findPieces_len_bound _ _ _ hm').1
    have hj' : j' ≤ i := by omega
    rcases Nat.lt_or_ge j' i with hlt | hge
    · obtain ⟨vj', hvj'⟩ := Option.isSome_iff_exists.mp (H.reach j' (by omega) (by omega))
      obtain ⟨toks', ht'⟩ := H.sound j' vj' hvj'
      have hseg : Seg u text i (i + 1) (toks' ++ [m.2.1]) (vj' + m.2.2) := by
        have hpiece := Seg.piece ht' hlt (show (m.1, m.2.1, m.2.2) ∈ _ from hm')
        rw [heq] at hpiece
        exact hpiece
      have hsome := oLE_someMono (by rfl) (H.comp _ _ _ hseg)
      have hps := (H.someIff (i + 1) (by omega)).mp hsome
      have := st1_someMonoP (i + 1) hps
      rw [hnone] at this
      cases this
    · have hj'' : j' = i := by omega
      rw [hj''] at hm' heq
      have hc := rcomp m hm'
      rw [heq] at hc
      have hsome := oLE_someMono (by rfl) hc
      have := (st1_someIff (i + 1) (by omega)).mp hsome
      rw [hnone] at this
      cases this
  have hbts := fallbackTokens_ne_nil u (text.getD i default)
  have hstep_eq : iterStep u text i st =
      if (st1.prev.getD (i + 1) none).isSome then st1
      else { best := st1.best.set (i + 1) (some bi),
             prev := st1.prev.set (i + 1)
               (some (i, fallbackTokens u (text.getD i default))) } := by
    rw [iterStep, hbi]
    dsimp only
    rw [if_pos (List.length_pos.mpr hbts)]
  rw [hstep_eq]
  by_cases hA : (st1.prev.getD (i + 1) none).isSome
  · rw [if_pos hA]
    refine ⟨rlenB.trans H.lenB, rlenP.trans H.lenP,
      (st1_low 0 (by omega)).1.trans H.zeroB,
      (st1_low 0 (by omega)).2.trans H.zeroP,
      ?_, st1_someIff, st1_sound, ?_, ?_⟩
    · intro e he hen
      by_cases he' : e = i + 1
      · subst he'
        exact (st1_someIff (i + 1) (by omega)).mpr hA
      · exact oLE_someMono (H.reach e (by omega) hen) (st1_mono e)
    · intro e toks sc hseg
      rcases Seg_succ hseg with hL | ⟨toks₀, sc₀, hpre, hstep⟩
      · exact oLE_trans (H.comp e toks sc hL) (st1_mono e)
      · have hsc₀ : sc₀ ≤ bi := by
          have := H.comp i toks₀ sc₀ hpre
          rw [hbi] at this
          exact this
        rcases hstep with ⟨len, id, psc, hm, hpos, _, hsceq⟩ | ⟨hpos, hn, hall, _, hsceq⟩
        · have hc := rcomp (len, id, psc) hm
          have : oLE (some sc) (some (bi + psc)) := by
            rw [hsceq]
            show sc₀ + psc ≤ bi + psc
            exact add_le_add_right hsc₀ psc
          rw [hpos]
          exact oLE_trans this hc
        · exfalso
          obtain ⟨⟨j, ids⟩, hrec⟩ := Option.isSome_iff_exists.mp hA
          obtain ⟨hjc, hje, vj, ve, hvj, hve, hcase⟩ := st1_prevSpec (i + 1) j ids hrec
          rcases hcase with ⟨len', id', psc', hmm, hpos', _, _⟩ | ⟨hpos', _, _, _, _⟩
          · exact hall j (len', id', psc') hmm hpos'
          · rcases hjc with hjlt | ⟨hj2, len2, id2, psc2, hm2, hpos2, _⟩
            · omega
            · rw [hj2] at hpos2
              exact hall i (len2, id2, psc2) hm2 hpos2
    · intro e j ids hrec
      obtain ⟨hjc, hje, vj, ve, hvj, hve, hcase⟩ := st1_prevSpec e j ids hrec
      refine ⟨?_, hje, vj, ve, hvj, hve, hcase⟩
      rcases hjc with h | ⟨rfl, _⟩
      · omega
      · omega
  · rw [if_neg hA]
    have hnoneP : st1.prev.getD (i + 1) none = none := by
      cases hsp : st1.prev.getD (i + 1) none with
      | none => rfl
      | some x => rw [hsp] at hA; exact absurd rfl hA
    have hnoneB : st1.best.getD (i + 1) none = none := by
      cases hsb : st1.best.getD (i + 1) none with
      | none => rfl
      | some x =>
        exfalso
        exact hA ((st1_someIff (i + 1) (by omega)).mp (by rw [hsb]; rfl))
    have hall := hnomatch hnoneP
    have hi1B : i + 1 < st1.best.length := by rw [rlenB, H.lenB]; omega
    have hi1P : i + 1 < st1.prev.length := by rw [rlenP, H.lenP]; omega
    have hWB : (st1.best.set (i + 1) (some bi)).getD (i + 1) none = some bi :=
      getD_set_self _ _ _ _ hi1B
    have hWP : (st1.prev.set (i + 1)
        (some (i, fallbackTokens u (text.getD i default)))).getD (i + 1) none
        = some (i, fallbackTokens u (text.getD i default)) :=
      getD_set_self _ _ _ _ hi1P
    have hUB : ∀ e, e ≠ i + 1 →
        (st1.best.set (i + 1) (some bi)).getD e none = st1.best.getD e none := by
      intro e he
      exact getD_set_ne _ _ _ (fun h => he h.symm)
    have hUP : ∀ e, e ≠ i + 1 →
        (st1.prev.set (i + 1)
          (some (i, fallbackTokens u (text.getD i default)))).getD e none
        = st1.prev.getD e none := by
      intro e he
      exact getD_set_ne _ _ _ (fun h => he h.symm)
    refine ⟨?_, ?_, ?_, ?_, ?_, ?_, ?_, ?_, ?_⟩
    · simpa using rlenB.trans H.lenB
    · simpa using rlenP.trans H.lenP
    · rw [hUB 0 (by omega)]
      exact (st1_low 0 (by omega)).1.trans H.zeroB
    · rw [hUP 0 (by omega)]
      exact (st1_low 0 (by omega)).2.trans H.zeroP
    · intro e he hen
      rcases Nat.lt_succ_iff_lt_or_eq.mp (Nat.lt_succ_of_le he) with he' | rfl
      · rw [hUB e (by omega)]
        exact oLE_someMono (H.reach e (by omega) hen) (st1_mono e)
      · rw [hWB]; rfl
    · intro e he
      by_cases heq : e = i + 1
      · subst heq
        rw [hWB, hWP]
        simp
      · rw [hUB e heq, hUP e heq]
        exact st1_someIff e he
    · intro e v hv
      by_cases heq : e = i + 1
      · subst heq
        rw [hWB] at hv
        injection hv with hv'
        obtain ⟨toks₀, ht₀⟩ := H.sound i bi hbi
        refine ⟨toks₀ ++ fallbackTokens u (text.getD i default), ?_⟩
        rw [← hv']
        exact Seg.fall (Seg_mono (Nat.le_succ i) ht₀) (Nat.lt_succ_self i) hi hall
      · rw [hUB e heq] at hv
        exact st1_sound e v hv
    · intro e toks sc hseg
      rcases Seg_succ hseg with hL | ⟨toks₀, sc₀, hpre, hstep⟩
      · by_cases heq : e = i + 1
        · subst heq
          rw [hWB]
          have := oLE_trans (H.comp _ _ _ hL) (st1_mono (i + 1))
          rw [hnoneB] at this
          cases hsc : (some sc : Option ℚ) with
          | none => cases hsc
          | some x =>
            exfalso
            rw [hsc] at this
            exact this
        · rw [hUB e heq]
          exact oLE_trans (H.comp e toks sc hL) (st1_mono e)
      · have hsc₀ : sc₀ ≤ bi := by
          have := H.comp i toks₀ sc₀ hpre
          rw [hbi] at this
          exact this
        rcases hstep with ⟨len, id, psc, hm, hpos, _, hsceq⟩ | ⟨hpos, hn, hall', _, hsceq⟩
        · have hne : e ≠ i + 1 := fun hcontra => hall i (len, id, psc) hm (by omega)
          rw [hUB e hne]
          have hc := rcomp (len, id, psc) hm
          have hle : oLE (some sc) (some (bi + psc)) := by
            rw [hsceq]
            show sc₀ + psc ≤ bi + psc
            exact add_le_add_right hsc₀ psc
          rw [hpos]
          exact oLE_trans hle hc
        · rw [hpos, hWB, hsceq]
          exact hsc₀
    · intro e j ids hrec
      by_cases heq : e = i + 1
      · subst heq
        rw [hWP] at hrec
        injection hrec with hrec1
        obtain ⟨rfl, rfl⟩ := Prod.mk.injEq .. ▸ And.intro
          (congrArg Prod.fst hrec1) (congrArg Prod.snd hrec1)
        refine ⟨by omega, by omega, bi, bi, ?_, hWB, Or.inr ⟨rfl, hi, rfl, rfl, hall⟩⟩
        rw [hUB i (by omega)]
        exact st1_bi
      · rw [hUP e heq] at hrec
        obtain ⟨hjc, hje, vj, ve, hvj, hve, hcase⟩ := st1_prevSpec e j ids hrec
        have hjne : j ≠ i + 1 := by
          rcases hjc with h | ⟨rfl, _⟩
          · omega
          · omega
        refine ⟨?_, hje, vj, ve, ?_, ?_, hcase⟩
        · rcases hjc with h | ⟨rfl, _⟩
          · omega
          · omega
        · rw [hUB j hjne]; exact hvj
        · rw [hUB e heq]; exact hve

theorem getD_replicate_none {α : Type} :
    ∀ (n e : Nat), (List.replicate n (none : Option α)).getD e none = none
  | 0, _ => rfl
  | _ + 1, 0 => rfl
  | n + 1, e + 1 => getD_replicate_none n e

/-- The invariant holds before the first iteration. -/
theorem inv_init (u : Unigram) (text : List Char) :
    Inv u text 0
      ⟨some 0 :: List.replicate text.length none,
       List.replicate (text.length + 1) none⟩ := by
  have hb : ∀ e, 1 ≤ e →
      (some 0 :: List.replicate text.length (none : Option ℚ)).getD e none = none := by
    intro e he
    cases e with
    | zero => omega
    | succ e => exact getD_replicate_none text.length e
  have hp : ∀ e,
      (List.replicate (text.length + 1)
        (none : Option (Nat × List Nat))).getD e none = none := by
    intro e
    exact getD_replicate_none _ e
  refine ⟨by simp, by simp, rfl, hp 0, ?_, ?_, ?_, ?_, ?_⟩
  · intro e he _
    have he0 : e = 0 := by omega
    subst he0
    rfl
  · intro e he
    rw [hb e he, hp e]
    simp
  · intro e v hv
    cases e with
    | zero =>
      injection hv with hv'
      exact ⟨[], by rw [← hv']; exact Seg.nil⟩
    | succ e => rw [hb (e + 1) (by omega)] at hv; cases hv
  · intro e toks sc hseg
    obtain ⟨rfl, _, rfl⟩ := Seg_bound_zero hseg
    exact le_refl (0 : ℚ)
  · intro e j ids hrec
    rw [hp e] at hrec
    cases hrec

/-- Running the remaining iterations carries the invariant to the end. -/
theorem viterbiLoop_inv (u : Unigram) (text : List Char) :
    ∀ (k i : Nat) (st : VState), Inv u text i st → i + k = text.length →
      Inv u text text.length (viterbiLoop u text k i st)
  | 0, i, st, H, hk => by
    have hin : i = text.length := by omega
    rw [viterbiLoop]
    exact hin ▸ H
  | k + 1, i, st, H, hk => by
    rw [viterbiLoop]
    exact viterbiLoop_inv u text k (i + 1) _ (iterStep_inv (by omega) H) (by omega)

theorem viterbiRun_inv (u : Unigram) (text : List Char) :
    Inv u text text.length (viterbiRun u text) :=
  viterbiLoop_inv u text text.length 0 _ (inv_init u text) (by omega)

/-- Backtracking from any reached position emits (reversed) the tokens of a
valid segmentation whose score is that position's `best` value. -/
theorem backtrack_spec {u : Unigram} {text : List Char} {S : VState}
    (H : Inv u text text.length S) :
    ∀ (fuel pos : Nat) (acc : List Nat), pos ≤ text.length → pos < fuel →
      ∃ toks v, Seg u text text.length pos toks v ∧ S.best.getD pos none = some v ∧
        backtrackGo u text S.prev fuel pos acc = acc ++ toks.reverse := by
  intro fuel
  induction fuel with
  | zero => intro pos acc _ h; omega
  | succ fuel ih =>
    intro pos acc hpos hfuel
    cases pos with
    | zero =>
      refine ⟨[], 0, Seg.nil, H.zeroB, ?_⟩
      rw [backtrackGo]
      simp
    | succ p =>
      have hsome := H.reach (p + 1) hpos hpos
      have hpsome := (H.someIff (p + 1) (by omega)).mp hsome
      obtain ⟨⟨j, ids⟩, hrec⟩ := Option.isSome_iff_exists.mp hpsome
      obtain ⟨hjk, hje, vj, ve, hvj, hve, hcase⟩ := H.prevSpec (p + 1) j ids hrec
      obtain ⟨toksj, vj', hsegj, hbestj, heqj⟩ :=
        ih j (acc ++ ids.reverse) (by omega) (by omega)
      have hvj' : vj' = vj := by
        rw [hvj] at hbestj
        injection hbestj with h'
        exact h'.symm
      subst hvj'
      have hgo : backtrackGo u text S.prev (fuel + 1) (p + 1) acc
          = backtrackGo u text S.prev fuel j (acc ++ ids.reverse) := by
        rw [backtrackGo, hrec]
      rcases hcase with ⟨len, id, psc, hm, hplen, hids, hvee⟩ | ⟨hpos1, hjn, hids, hvee, hall⟩
      · refine ⟨toksj ++ [id], ve, ?_, hve, ?_⟩
        · have hstep := Seg.piece hsegj (by omega) hm
          rw [hplen, ← hvee] at hstep
          exact hstep
        · rw [hgo, heqj, hids]
          simp [List.append_assoc]
      · refine ⟨toksj ++ fallbackTokens u (text.getD j default), ve, ?_, hve, ?_⟩
        · rw [hpos1] at hall
          have hstep := Seg.fall hsegj (by omega) hjn hall
          rw [← hpos1, ← hvee] at hstep
          exact hstep
        · rw [hgo, heqj, hids]
          simp [List.append_assoc]

/-- C5: the token path returned by `Unigram.encode` is (the token list of) a
valid segmentation of the normalized text whose total score — piece scores
summed, byte-fallback steps contributing 0 — is the greatest over all valid
segmentations (`Seg` encodes the byte-fallback policy of the code: fallback
steps exist only where no vocabulary piece ends). -/
theorem claim_C5 (u : Unigram) (text : List Char) :
    ∃ toks sc,
      Seg u (unigramNormalize u text) (unigramNormalize u text).length
        (unigramNormalize u text).length toks sc ∧
      unigramEncode u text = toks ∧
      IsGreatest {q : ℚ | ∃ toks', Seg u (unigramNormalize u text)
        (unigramNormalize u text).length (unigramNormalize u text).length toks' q} sc := by
  by_cases h0 : (unigramNormalize u text).length = 0
  · refine ⟨[], 0, h0 ▸ Seg.nil, ?_, ⟨[], h0 ▸ Seg.nil⟩, ?_⟩
    · rw [unigramEncode, if_pos h0]
    · intro q hq
      obtain ⟨toks', hseg'⟩ := hq
      rw [h0] at hseg'
      exact le_of_eq (Seg_zero hseg').2
  · have H := viterbiRun_inv u (unigramNormalize u text)
    obtain ⟨toks, v, hseg, hbest, heq⟩ :=
      backtrack_spec H ((unigramNormalize u text).length + 1)
        (unigramNormalize u text).length [] le_rfl (by omega)
    refine ⟨toks, v, hseg, ?_, ⟨toks, hseg⟩, ?_⟩
    · have hunf : unigramEncode u text = (backtrackGo u (unigramNormalize u text)
          (viterbiRun u (unigramNormalize u text)).prev
          ((unigramNormalize u text).length + 1) (unigramNormalize u text).length []).reverse := by
        rw [unigramEncode]
        dsimp only
        rw [if_neg h0]
      rw [hunf, heq]
      simp
    · intro q hq
      obtain ⟨toks', hseg'⟩ := hq
      have := H.comp _ _ _ hseg'
      rw [hbest] at this
      exact this

/-- C6: byte fallback never displaces a vocabulary match.  (1) Step-level
invariant: whenever, after relaxing all trie matches starting at `i`, some
recorded step already reaches `i + 1`, the iteration performs no fallback —
the state is exactly the relaxed one, irrespective of scores.  (2) On a
vocabulary with piece `"ab"` (any negative score `s`) plus byte pieces,
`encode "ab"` is `[id "ab"]` — never byte-fallback tokens. -/
theorem claim_C6 :
    (∀ (u : Unigram) (text : List Char) (i : Nat) (st : VState) (bi : ℚ),
      st.best.getD i none = some bi →
      ((relax i bi (findPieces u.trie (text.drop i)) st).prev.getD (i + 1) none).isSome →
      iterStep u text i st = relax i bi (findPieces u.trie (text.drop i)) st) ∧
    (∀ s : ℚ, s < 0 → unigramEncode (unigramOfModel (c6Model s)) ['a', 'b'] = [1]) := by
  constructor
  · intro u text i st bi hbi hsome
    rw [iterStep, hbi]
    dsimp only
    rw [if_pos hsome]
  · intro s _
    rfl

/-- Witness for C6: at score `-1` the hypotheses hold and `"ab"` encodes to
the single vocabulary id. -/
theorem claim_C6_witness :
    unigramEncode (unigramOfModel (c6Model (-1))) ['a', 'b'] = [1] :=
  claim_C6.2 (-1) (by norm_num)

/-! ## C10: decode totality vs. `decodeBytes` errors -/

/-- The token loop of `BpeEncoding.decodeBytes` (plain encoding:
`_beforeDecode` is the identity): look each rank up in `decoder`, then in
`specialTokensDecoder`, throwing on a miss. -/
def decodeBytesGo (dec sdec : List (Nat × List Nat)) :
    List Nat → Except String (List (List Nat))
  | [] => .ok []
  | t :: rest =>
    match assocGet dec t with
    | some b => (decodeBytesGo dec sdec rest).map (b :: ·)
    | none =>
      match assocGet sdec t with
      | some b => (decodeBytesGo dec sdec rest).map (b :: ·)
      | none => .error "Unknown token during decode"

/-- `BpeEncoding.decodeBytes`. -/
def bpeDecodeBytes (dec sdec : List (Nat × List Nat)) (tokens : List Nat) :
    Except String (List Nat) :=
  (decodeBytesGo dec sdec tokens).map List.flatten

theorem map_tag_unk (dec : List (Nat × List Char)) :
    ∀ ids : List Nat, (∀ id ∈ ids, assocGet dec id = none) →
      ids.map (tagTok dec) = List.replicate ids.length DecTag.unk
  | [], _ => rfl
  | id :: rest, h => by
    simp only [List.map_cons, List.length_cons, List.replicate_succ]
    rw [map_tag_unk dec rest (fun i hi => h i (by simp [hi]))]
    have hid : tagTok dec id = DecTag.unk := by
      rw [tagTok, h id (by simp)]
    rw [hid]

theorem groups_unk :
    ∀ n, decodeGroups none (List.replicate n DecTag.unk) = List.replicate n ['�']
  | 0 => rfl
  | n + 1 => by
    simp only [List.replicate_succ, decodeGroups]
    rw [groups_unk n]

theorem flatten_replicate_singleton {α : Type} (a : α) :
    ∀ n, (List.replicate n [a]).flatten = List.replicate n a
  | 0 => rfl
  | n + 1 => by
    simp only [List.replicate_succ, List.flatten_cons]
    rw [flatten_replicate_singleton a n]
    rfl

theorem decodeBytesGo_unknown (dec sdec : List (Nat × List Nat)) :
    ∀ (tokens : List Nat) (t : Nat), t ∈ tokens →
      assocGet dec t = none → assocGet sdec t = none →
      ∃ e, decodeBytesGo dec sdec tokens = .error e
  | [], t, ht, _, _ => absurd ht (by simp)
  | t' :: rest, t, ht, hd, hs => by
    rcases List.mem_cons.mp ht with rfl | ht'
    · exact ⟨"Unknown token during decode", by rw [decodeBytesGo, hd, hs]⟩
    · obtain ⟨e, he⟩ := decodeBytesGo_unknown dec sdec rest t ht' hd hs
      cases hd' : assocGet dec t' with
      | some b => exact ⟨e, by rw [decodeBytesGo, hd', he]; rfl⟩
      | none =>
        cases hs' : assocGet sdec t' with
        | some b => exact ⟨e, by rw [decodeBytesGo, hd', hs', he]; rfl⟩
        | none => exact ⟨"Unknown token during decode", by rw [decodeBytesGo, hd', hs']⟩

/-- C10: `Unigram.decode` is total and substitutes `"�"` for every unknown
id — a list of unknown ids decodes to that many replacement characters —
whereas `BpeEncoding.decodeBytes` throws on any unknown rank. -/
theorem claim_C10 :
    (∀ (u : Unigram) (ids : List Nat),
      (∀ id ∈ ids, assocGet u.decoder id = none) →
      unigramDecode u ids = List.replicate ids.length '�') ∧
    (∀ (dec sdec : List (Nat × List Nat)) (tokens : List Nat) (t : Nat),
      t ∈ tokens → assocGet dec t = none → assocGet sdec t = none →
      ∃ e, bpeDecodeBytes dec sdec tokens = .error e) := by
  constructor
  · intro u ids h
    have hrep : ((decodeGroups none (ids.map (tagTok u.decoder))).flatten).map
        (fun c => if c = SPIECE then ' ' else c) = List.replicate ids.length '�' := by
      rw [map_tag_unk _ _ h, groups_unk, flatten_replicate_singleton, List.map_replicate]
      congr 1
    rw [unigramDecode]
    rw [hrep]
    split
    · cases hn : ids.length with
      | zero => rfl
      | succ n => rw [List.replicate_succ]; rfl
    · rfl
  · intro dec sdec tokens t ht hd hs
    obtain ⟨e, he⟩ := decodeBytesGo_unknown dec sdec tokens t ht hd hs
    exact ⟨e, by rw [bpeDecodeBytes, he]; rfl⟩

/-- Witness for C10: id 99 is unknown to the small Unigram model and decodes
to `"�"`, while `decodeBytes` on empty tables throws for token 5. -/
theorem claim_C10_witness :
    unigramDecode (unigramOfModel (c6Model (-1))) [99] = ['�'] ∧
    ∃ e, bpeDecodeBytes [] [] [5] = .error e :=
  ⟨claim_C10.1 (unigramOfModel (c6Model (-1))) [99] (by decide),
   claim_C10.2 [] [] [5] 5 (by decide) (by decide) (by decide)⟩

/-! ## UTF-8 round trip -/

theorem char_toNat_lt (c : Char) : c.toNat < 0x110000 := by
  rcases c.valid with h | ⟨_, h2⟩
  · exact lt_trans (by exact_mod_cast h) (by norm_num)
  · exact_mod_cast h2

/-- The byte-level decoder inverts the encoder character by character. -/
theorem u8go_utf8Char (c : Char) (rest : List Nat) :
    u8go 0 0 (utf8Char c ++ rest) = c :: u8go 0 0 rest := by
  have hofn : Char.ofNat c.toNat = c := Char.ofNat_toNat c
  have hv := char_toNat_lt c
  by_cases h1 : c.toNat < 0x80
  · rw [show utf8Char c = [c.toNat] from by rw [utf8Char]; simp [h1]]
    rw [List.cons_append, List.nil_append, u8go, if_pos h1, mkChar, hofn]
  · by_cases h2 : c.toNat < 0x800
    · rw [show utf8Char c = [0xC0 + c.toNat / 64, 0x80 + c.toNat % 64] from by
        rw [utf8Char]; simp [h1, h2]]
      rw [List.cons_append, List.cons_append, List.nil_append]
      rw [u8go, if_neg (by omega), if_neg (by omega), if_pos (by omega)]
      rw [u8go, if_pos (by omega)]
      rw [if_pos rfl]
      have harith : (0xC0 + c.toNat / 64 - 0xC0) * 64 + (0x80 + c.toNat % 64 - 0x80)
          = c.toNat := by omega
      rw [harith, mkChar, hofn]
    · by_cases h3 : c.toNat < 0x10000
      · rw [show utf8Char c = [0xE0 + c.toNat / 4096, 0x80 + c.toNat / 64 % 64,
            0x80 + c.toNat % 64] from by rw [utf8Char]; simp [h1, h2, h3]]
        rw [List.cons_append, List.cons_append, List.cons_append, List.nil_append]
        rw [u8go, if_neg (by omega), if_neg (by omega), if_neg (by omega), if_pos (by omega)]
        rw [u8go, if_pos (by omega), if_neg (by omega)]
        rw [u8go, if_pos (by omega)]
        rw [if_pos rfl]
        have harith : ((0xE0 + c.toNat / 4096 - 0xE0) * 64 +
            (0x80 + c.toNat / 64 % 64 - 0x80)) * 64 + (0x80 + c.toNat % 64 - 0x80)
            = c.toNat := by omega
        rw [harith, mkChar, hofn]
      · rw [show utf8Char c = [0xF0 + c.toNat / 262144, 0x80 + c.toNat / 4096 % 64,
            0x80 + c.toNat / 64 % 64, 0x80 + c.toNat % 64] from by
          rw [utf8Char]; simp [h1, h2, h3]]
        rw [List.cons_append, List.cons_append, List.cons_append, List.cons_append,
          List.nil_append]
        rw [u8go, if_neg (by omega), if_neg (by omega), if_neg (by omega),
          if_neg (by omega), if_pos (by omega)]
        rw [u8go, if_pos (by omega), if_neg (by omega)]
        rw [u8go, if_pos (by omega), if_neg (by omega)]
        rw [u8go, if_pos (by omega)]
        rw [if_pos rfl]
        have harith : (((0xF0 + c.toNat / 262144 - 0xF0) * 64 +
            (0x80 + c.toNat / 4096 % 64 - 0x80)) * 64 +
            (0x80 + c.toNat / 64 % 64 - 0x80)) * 64 + (0x80 + c.toNat % 64 - 0x80)
            = c.toNat := by omega
        rw [harith, mkChar, hofn]

theorem u8go_utf8 : ∀ (s : List Char) (rest : List Nat),
    u8go 0 0 (utf8 s ++ rest) = s ++ u8go 0 0 rest
  | [], rest => rfl
  | c :: s, rest => by
    rw [show utf8 (c :: s) = utf8Char c ++ utf8 s from rfl, List.append_assoc,
      u8go_utf8Char, u8go_utf8 s rest]
    rfl

/-- `TextDecoder` inverts `TextEncoder` on scalar strings. -/
theorem utf8Decode_utf8 (s : List Char) : utf8Decode (utf8 s) = s := by
  have := u8go_utf8 s []
  rw [List.append_nil] at this
  rw [utf8Decode, this]
  simp [u8go]

/-! ## Merge-engine structural invariant (C8) -/

theorem getD_append_lt {α : Type} (l1 l2 : List α) (j : Nat) (d : α) (h : j < l1.length) :
    (l1 ++ l2).getD j d = l1.getD j d := by
  simp [List.getD, List.getElem?_append_left h]

theorem getD_append_ge {α : Type} (l1 l2 : List α) (j : Nat) (d : α) (h : l1.length ≤ j) :
    (l1 ++ l2).getD j d = l2.getD (j - l1.length) d := by
  simp [List.getD, List.getElem?_append_right h]

theorem getD_map_range {α : Type} (f : Nat → α) (m j : Nat) (d : α) (h : j < m) :
    ((List.range m).map f).getD j d = f j := by
  simp [List.getD, List.getElem?_map, List.getElem?_range h]

theorem getD_eraseIdx_lt {α : Type} (l : List α) (m j : Nat) (d : α) (h : j < m) :
    (l.eraseIdx m).getD j d = l.getD j d := by
  rw [List.eraseIdx_eq_take_drop_succ]
  by_cases hl : j < l.length
  · rw [getD_append_lt _ _ _ _ (by simp; omega)]
    simp [List.getD, List.getElem?_take, h]
  · have h1 : (l.take m).length ≤ j := by simp; omega
    rw [getD_append_ge _ _ _ _ h1]
    simp only [List.getD, List.get?_eq_getElem?]
    rw [List.getElem?_drop]
    have hnone : ∀ k, l.length ≤ k → l[k]? = none := fun k hk => List.getElem?_eq_none hk
    rw [hnone _ (by simp; omega), hnone _ (by omega)]

theorem getD_eraseIdx_ge {α : Type} (l : List α) (m j : Nat) (d : α)
    (hm : m < l.length) (h : m ≤ j) :
    (l.eraseIdx m).getD j d = l.getD (j + 1) d := by
  rw [List.eraseIdx_eq_take_drop_succ]
  have h1 : (l.take m).length ≤ j := by simp; omega
  rw [getD_append_ge _ _ _ _ h1]
  simp only [List.getD, List.get?_eq_getElem?]
  rw [List.getElem?_drop]
  congr 2
  simp
  omega

/-- Invariant of the `parts` array throughout `_bytePairMerge`: at least two
parts; strictly increasing byte offsets from 0 to `piece.length`; every
adjacent span present in the rank map; and each stored rank is the rank of
merging its span with the next (`RANK_MAX` at the border). -/
structure MergeInv (ranks : List (List Nat × Nat)) (piece : List Nat)
    (parts : List Part) : Prop where
  len2 : 2 ≤ parts.length
  mono : ∀ j k, j < k → k < parts.length →
    (parts.getD j default).start < (parts.getD k default).start
  first : (parts.getD 0 default).start = 0
  lastEq : (parts.getD (parts.length - 1) default).start = piece.length
  spans : ∀ j, j + 1 < parts.length →
    (assocGet ranks (slice piece (parts.getD j default).start
      (parts.getD (j + 1) default).start)).isSome
  rankF : ∀ j, j + 2 < parts.length →
    (parts.getD j default).rank =
      ranksD ranks (slice piece (parts.getD j default).start
        (parts.getD (j + 2) default).start)
  rankMax : ∀ j, j < parts.length → parts.length ≤ j + 2 →
    (parts.getD j default).rank = RANK_MAX

theorem slice_single (piece : List Nat) (j : Nat) (h : j < piece.length) :
    slice piece j (j + 1) = [piece.getD j 0] := by
  rw [slice]
  have h1 : j + 1 - j = 1 := by omega
  rw [h1, List.drop_eq_getElem_cons h, List.take_succ_cons, List.take_zero]
  simp [List.getD, List.getElem?_eq_getElem h]

theorem initParts_length (ranks : List (List Nat × Nat)) (piece : List Nat)
    (h : 1 ≤ piece.length) : (initParts ranks piece).length = piece.length + 1 := by
  rw [initParts]
  simp
  omega

theorem initParts_getD (ranks : List (List Nat × Nat)) (piece : List Nat)
    (j : Nat) (hp : 1 ≤ piece.length) (hj : j ≤ piece.length) :
    (initParts ranks piece).getD j default =
      if j < piece.length - 1 then ⟨j, ranksD ranks (slice piece j (j + 2))⟩
      else if j = piece.length - 1 then ⟨piece.length - 1, RANK_MAX⟩
      else ⟨piece.length, RANK_MAX⟩ := by
  rw [initParts]
  by_cases h1 : j < piece.length - 1
  · rw [getD_append_lt _ _ _ _ (by simp; omega)]
    rw [getD_map_range _ _ _ _ h1, if_pos h1]
  · rw [getD_append_ge _ _ _ _ (by simp; omega)]
    simp only [List.length_map, List.length_range]
    by_cases h2 : j = piece.length - 1
    · rw [if_neg h1, if_pos h2]
      have : j - (piece.length - 1) = 0 := by omega
      rw [this]
      rfl
    · rw [if_neg h1, if_neg h2]
      have : j - (piece.length - 1) = 1 := by omega
      rw [this]
      rfl

theorem mergeInv_init (ranks : List (List Nat × Nat)) (piece : List Nat)
    (hlen2 : 2 ≤ piece.length)
    (hsingle : ∀ j, j < piece.length → (assocGet ranks [piece.getD j 0]).isSome) :
    MergeInv ranks piece (initParts ranks piece) := by
  have hL := initParts_length ranks piece (by omega)
  have hget := initParts_getD ranks piece
  have hstart : ∀ j, j ≤ piece.length →
      ((initParts ranks piece).getD j default).start = j := by
    intro j hj
    rw [hget j (by omega) hj]
    split
    · rfl
    · split
      · rename_i h1 h2
        rw [h2]
      · rename_i h1 h2
        have : j = piece.length := by omega
        rw [this]
  refine ⟨by omega, ?_, ?_, ?_, ?_, ?_, ?_⟩
  · intro j k hjk hk
    rw [hstart j (by omega), hstart k (by omega)]
    exact hjk
  · exact hstart 0 (by omega)
  · rw [hL]
    simpa using hstart piece.length le_rfl
  · intro j hj
    rw [hL] at hj
    rw [hstart j (by omega), hstart (j + 1) (by omega), slice_single piece j (by omega)]
    exact hsingle j (by omega)
  · intro j hj
    rw [hL] at hj
    rw [hstart j (by omega), hstart (j + 2) (by omega), hget j (by omega) (by omega),
      if_pos (by omega)]
  · intro j hj1 hj2
    rw [hL] at hj1 hj2
    rw [hget j (by omega) (by omega), if_neg (by omega)]
    split
    · rfl
    · rfl

theorem setRank_getD_self (parts : List Part) (i r : Nat) (h : i < parts.length) :
    (setRank parts i r).getD i default = ⟨(parts.getD i default).start, r⟩ :=
  getD_set_self _ _ _ _ h

theorem setRank_getD_ne (parts : List Part) {i j : Nat} (r : Nat) (h : j ≠ i) :
    (setRank parts i r).getD j default = parts.getD j default :=
  getD_set_ne _ _ _ (fun h' => h h'.symm)

/-- One selected merge preserves the invariant and shortens `parts` by one. -/
theorem mergeInv_step (ranks : List (List Nat × Nat)) (piece : List Nat)
    (parts : List Part) (H : MergeInv ranks piece parts)
    (hfm : (findMin parts).1 ≠ RANK_MAX) :
    MergeInv ranks piece (mergeStep ranks piece parts (findMin parts).2) ∧
    (mergeStep ranks piece parts (findMin parts).2).length = parts.length - 1 := by
  obtain ⟨hub, hlm, hfm3⟩ := findMin_leftmost parts
  obtain ⟨hi, hri⟩ := hfm3 hfm
  set i := (findMin parts).2 with hidef
  set r := (findMin parts).1 with hrdef
  set L := parts.length with hLdef
  have hi2 : i + 2 < L := by
    by_contra hc
    have hx := H.rankMax i (by omega) (by omega)
    rw [hri] at hx
    exact hfm hx
  set parts1 := if 0 < i then setRank parts (i - 1)
      (getRankAt ranks piece parts (i - 1)) else parts with hp1def
  have hlen1 : parts1.length = L := by
    rw [hp1def]
    split
    · exact List.length_set ..
    · rfl
  have hstart1 : ∀ j, (parts1.getD j default).start = (parts.getD j default).start := by
    intro j
    rw [hp1def]
    split
    · by_cases hj : j = i - 1
      · subst hj
        rename_i h0
        rw [setRank_getD_self parts _ _ (by omega)]
      · rw [setRank_getD_ne parts _ hj]
    · rfl
  have hg2 : getRankAt ranks piece parts1 i = getRankAt ranks piece parts i := by
    rw [getRankAt, getRankAt, hlen1, ← hLdef, hstart1, hstart1]
  have hms : mergeStep ranks piece parts i =
      (setRank parts1 i (getRankAt ranks piece parts i)).eraseIdx (i + 1) := by
    rw [mergeStep, ← hp1def, hg2]
  set g1 := getRankAt ranks piece parts (i - 1) with hg1def
  set g2 := getRankAt ranks piece parts i with hg2def
  set R := (setRank parts1 i g2).eraseIdx (i + 1) with hRdef
  have hlen2 : (setRank parts1 i g2).length = L := by
    rw [setRank, List.length_set, hlen1]
  have hRlen : R.length = L - 1 := by
    rw [hRdef, List.length_eraseIdx, hlen2, if_pos (by omega)]
  have p2_i : (setRank parts1 i g2).getD i default
      = ⟨(parts.getD i default).start, g2⟩ := by
    rw [setRank_getD_self parts1 _ _ (by omega), hstart1]
  have p2_ne : ∀ j, j ≠ i →
      (setRank parts1 i g2).getD j default = parts1.getD j default :=
    fun j hj => setRank_getD_ne parts1 _ hj
  have p1_im1 : 0 < i → parts1.getD (i - 1) default
      = ⟨(parts.getD (i - 1) default).start, g1⟩ := by
    intro h0
    rw [hp1def, if_pos h0, setRank_getD_self parts _ _ (by omega)]
  have p1_orig : ∀ j, j ≠ i - 1 → parts1.getD j default = parts.getD j default := by
    intro j hj
    rw [hp1def]
    split
    · rw [setRank_getD_ne parts _ hj]
    · rfl
  have hR_a : ∀ j, j + 1 < i → R.getD j default = parts.getD j default := by
    intro j hj
    rw [hRdef, getD_eraseIdx_lt _ _ _ _ (by omega), p2_ne j (by omega),
      p1_orig j (by omega)]
  have hR_b : 0 < i → R.getD (i - 1) default
      = ⟨(parts.getD (i - 1) default).start, g1⟩ := by
    intro h0
    rw [hRdef, getD_eraseIdx_lt _ _ _ _ (by omega), p2_ne (i - 1) (by omega), p1_im1 h0]
  have hR_c : R.getD i default = ⟨(parts.getD i default).start, g2⟩ := by
    rw [hRdef, getD_eraseIdx_lt _ _ _ _ (by omega), p2_i]
  have hR_d : ∀ j, i < j → R.getD j default = parts.getD (j + 1) default := by
    intro j hj
    rw [hRdef, getD_eraseIdx_ge _ _ _ _ (by rw [hlen2]; omega) (by omega),
      p2_ne (j + 1) (by omega), p1_orig (j + 1) (by omega)]
  have hs_a : ∀ j, j ≤ i →
      (R.getD j default).start = (parts.getD j default).start := by
    intro j hj
    rcases Nat.lt_or_ge (j + 1) i with h | h
    · rw [hR_a j h]
    · by_cases hji : j = i
      · rw [hji, hR_c]
      · have h0 : 0 < i := by omega
        have hj1 : j = i - 1 := by omega
        rw [hj1, hR_b h0]
  have hs_d : ∀ j, i < j →
      (R.getD j default).start = (parts.getD (j + 1) default).start := by
    intro j hj
    rw [hR_d j hj]
  have hg1val : 0 < i → g1 = ranksD ranks (slice piece
      (parts.getD (i - 1) default).start (parts.getD (i + 2) default).start) := by
    intro h0
    rw [hg1def, getRankAt, if_pos (by omega)]
    have h3 : i - 1 + 3 = i + 2 := by omega
    rw [h3]
  have hg2val : i + 3 < L → g2 = ranksD ranks (slice piece
      (parts.getD i default).start (parts.getD (i + 3) default).start) := by
    intro h3
    rw [hg2def, getRankAt, if_pos (by omega)]
  have hg2max : ¬ (i + 3 < L) → g2 = RANK_MAX := by
    intro h3
    rw [hg2def, getRankAt, if_neg (by omega)]
  have hspan_i : (assocGet ranks (slice piece (parts.getD i default).start
      (parts.getD (i + 2) default).start)).isSome := by
    have hfr := H.rankF i hi2
    rw [hri] at hfr
    rw [ranksD] at hfr
    cases hsg : assocGet ranks (slice piece (parts.getD i default).start
        (parts.getD (i + 2) default).start) with
    | none => rw [hsg] at hfr; simp at hfr; exact absurd hfr hfm
    | some x => rfl
  rw [hms]
  refine ⟨⟨by omega, ?_, ?_, ?_, ?_, ?_, ?_⟩, hRlen⟩
  · intro j k hjk hk
    rw [hRlen] at hk
    rcases Nat.lt_or_ge i k with hik | hik
    · rw [hs_d k hik]
      rcases Nat.lt_or_ge i j with hij | hij
      · rw [hs_d j hij]
        exact H.mono (j + 1) (k + 1) (by omega) (by omega)
      · rw [hs_a j (by omega)]
        exact H.mono j (k + 1) (by omega) (by omega)
    · rw [hs_a k hik, hs_a j (by omega)]
      exact H.mono j k hjk (by omega)
  · rw [hs_a 0 (by omega)]
    exact H.first
  · rw [hRlen]
    have hgt : i < L - 1 - 1 := by omega
    rw [hs_d (L - 1 - 1) hgt]
    have heq : L - 1 - 1 + 1 = L - 1 := by omega
    rw [heq]
    exact H.lastEq
  · intro j hj
    rw [hRlen] at hj
    rcases Nat.lt_or_ge j i with hij | hij
    · rw [hs_a j (by omega), hs_a (j + 1) (by omega)]
      exact H.spans j (by omega)
    · by_cases hji : j = i
      · rw [hji, hs_a i le_rfl, hs_d (i + 1) (by omega)]
        have h2 : i + 1 + 1 = i + 2 := by omega
        rw [h2]
        exact hspan_i
      · have hgt : i < j := by omega
        rw [hs_d j hgt, hs_d (j + 1) (by omega)]
        exact H.spans (j + 1) (by omega)
  · intro j hj
    rw [hRlen] at hj
    rcases Nat.lt_or_ge (j + 1) i with hij | hij
    · rw [hR_a j hij, hs_a (j + 2) (by omega)]
      exact H.rankF j (by omega)
    · by_cases hji : j = i
      · rw [hji, hR_c, hs_d (i + 2) (by omega)]
        have h3 : i + 2 + 1 = i + 3 := by omega
        rw [h3]
        exact hg2val (by omega)
      · by_cases hji1 : j + 1 = i
        · have h0 : 0 < i := by omega
          have hj1 : j = i - 1 := by omega
          rw [hj1, hR_b h0, hs_d (i - 1 + 2) (by omega)]
          have h2 : i - 1 + 2 + 1 = i + 2 := by omega
          rw [h2]
          exact hg1val h0
        · have hgt : i < j := by omega
          rw [hR_d j hgt, hs_d (j + 2) (by omega)]
          exact H.rankF (j + 1) (by omega)
  · intro j hj1 hj2
    rw [hRlen] at hj1 hj2
    rcases Nat.lt_or_ge (j + 1) i with hij | hij
    · omega
    · by_cases hji : j = i
      · rw [hji, hR_c]
        exact hg2max (by omega)
      · by_cases hji1 : j + 1 = i
        · omega
        · have hgt : i < j := by omega
          rw [hR_d j hgt]
          exact H.rankMax (j + 1) (by omega) (by omega)

theorem mergeInv_loop (ranks : List (List Nat × Nat)) (piece : List Nat) :
    ∀ (fuel : Nat) (parts : List Part), MergeInv ranks piece parts →
      MergeInv ranks piece (mergeLoop ranks piece fuel parts)
  | 0, parts, H => H
  | fuel + 1, parts, H => by
    rw [mergeLoop]
    split
    · exact H
    · rename_i hne
      exact mergeInv_loop ranks piece fuel _ (mergeInv_step ranks piece parts H hne).1

theorem bytePairMerge_inv (ranks : List (List Nat × Nat)) (piece : List Nat)
    (hlen2 : 2 ≤ piece.length)
    (hsingle : ∀ j, j < piece.length → (assocGet ranks [piece.getD j 0]).isSome) :
    MergeInv ranks piece (bytePairMerge ranks piece) :=
  mergeInv_loop ranks piece _ _ (mergeInv_init ranks piece hlen2 hsingle)

theorem forall2_map_map {α β γ : Type} (P : β → γ → Prop) (f : α → β) (g : α → γ) :
    ∀ l : List α, (∀ x ∈ l, P (f x) (g x)) → List.Forall₂ P (l.map f) (l.map g)
  | [], _ => .nil
  | a :: l, h =>
    .cons (h a (by simp)) (forall2_map_map P f g l (fun x hx => h x (by simp [hx])))

theorem slice_append (piece : List Nat) (a b c : Nat) (hab : a ≤ b) (hbc : b ≤ c) :
    slice piece a b ++ slice piece b c = slice piece a c := by
  rw [slice, slice, slice]
  have h1 : c - a = (b - a) + (c - b) := by omega
  rw [h1, List.take_add]
  congr 2
  rw [List.drop_drop]
  congr 1
  omega

theorem join_slices (piece : List Nat) (s : Nat → Nat) :
    ∀ m : Nat, (∀ j, j < m → s j ≤ s (j + 1)) →
      ((List.range m).map (fun j => slice piece (s j) (s (j + 1)))).flatten
        = slice piece (s 0) (s m) ∧ s 0 ≤ s m
  | 0, _ => ⟨by simp [slice], le_refl _⟩
  | m + 1, h => by
    obtain ⟨ih1, ih2⟩ := join_slices piece s m (fun j hj => h j (by omega))
    rw [List.range_succ, List.map_append, List.flatten_append]
    simp only [List.map_cons, List.map_nil, List.flatten_cons, List.flatten_nil,
      List.append_nil]
    rw [ih1, slice_append piece _ _ _ ih2 (h m (by omega))]
    exact ⟨rfl, le_trans ih2 (h m (by omega))⟩

/-- The merge engine's output tokens are the ranks of a list of byte spans
that concatenates back to the input fragment. -/
theorem merge_emit (ranks : List (List Nat × Nat)) (piece : List Nat)
    (hlen2 : 2 ≤ piece.length)
    (hsingle : ∀ j, j < piece.length → (assocGet ranks [piece.getD j 0]).isSome) :
    ∃ spans : List (List Nat), spans.flatten = piece ∧
      List.Forall₂ (fun bs tok => assocGet ranks bs = some tok) spans
        (emitTokens ranks piece (bytePairMerge ranks piece)) := by
  have Hinv := bytePairMerge_inv ranks piece hlen2 hsingle
  refine ⟨(List.range ((bytePairMerge ranks piece).length - 1)).map
    (fun j => slice piece (((bytePairMerge ranks piece).getD j default).start)
      (((bytePairMerge ranks piece).getD (j + 1) default).start)), ?_, ?_⟩
  · have hj := join_slices piece
      (fun j => ((bytePairMerge ranks piece).getD j default).start)
      ((bytePairMerge ranks piece).length - 1)
      (fun j hj => le_of_lt (Hinv.mono j (j + 1) (by omega) (by omega)))
    rw [hj.1]
    simp only []
    rw [Hinv.first, Hinv.lastEq, slice, List.drop_zero, Nat.sub_zero, List.take_length]
  · rw [emitTokens]
    apply forall2_map_map
    intro j hjr
    rw [List.mem_range] at hjr
    obtain ⟨t, ht⟩ := Option.isSome_iff_exists.mp (Hinv.spans j (by omega))
    rw [ht]
    rfl

theorem utf8_ne_nil {frag : List Char} (h : frag ≠ []) : utf8 frag ≠ [] := by
  cases frag with
  | nil => exact absurd rfl h
  | cons c s =>
    show utf8Char c ++ utf8 s ≠ []
    simp [utf8Char_ne_nil c]

/-- One regex fragment encodes to ranks of spans concatenating to its
UTF-8 bytes. -/
theorem encodeFragment_spans (ranks : List (List Nat × Nat)) (frag : List Char)
    (hfragne : frag ≠ [])
    (hsingle : ∀ b ∈ utf8 frag, (assocGet ranks [b]).isSome) :
    ∃ spans : List (List Nat), spans.flatten = utf8 frag ∧
      List.Forall₂ (fun bs tok => assocGet ranks bs = some tok) spans
        (encodeFragment ranks frag) := by
  cases hfull : assocGet ranks (utf8 frag) with
  | some t =>
    refine ⟨[utf8 frag], by simp, ?_⟩
    rw [encodeFragment, hfull]
    exact .cons hfull .nil
  | none =>
    have henc : encodeFragment ranks frag = bytePairEncode (utf8 frag) ranks := by
      rw [encodeFragment, hfull]
    rw [henc]
    rcases Nat.lt_or_ge (utf8 frag).length 2 with hlt | hge
    · have h1 : (utf8 frag).length = 1 := by
        have := utf8_ne_nil hfragne
        have : (utf8 frag).length ≠ 0 := fun hc => this (List.length_eq_zero.mp hc)
        omega
      obtain ⟨b, hb⟩ := List.length_eq_one.mp h1
      rw [hb]
      obtain ⟨t, ht⟩ := Option.isSome_iff_exists.mp
        (hsingle b (by rw [hb]; simp))
      refine ⟨[[b]], by simp, ?_⟩
      rw [bytePairEncode, if_pos (by simp), ht]
      exact .cons ht .nil
    · have hsingle' : ∀ j, j < (utf8 frag).length →
          (assocGet ranks [(utf8 frag).getD j 0]).isSome := by
        intro j hj
        apply hsingle
        have : (utf8 frag).getD j 0 = (utf8 frag).get ⟨j, hj⟩ := by
          simp [List.getD, List.getElem?_eq_getElem hj]
        rw [this]
        exact List.get_mem _ _ hj
      obtain ⟨spans, hflat, hfa⟩ := merge_emit ranks (utf8 frag) hge hsingle'
      refine ⟨spans, hflat, ?_⟩
      rw [bytePairEncode, if_neg (by omega)]
      exact hfa

theorem forall2_append {α β : Type} {P : α → β → Prop} :
    ∀ {l1 l3 : List α} {l2 l4 : List β}, List.Forall₂ P l1 l2 → List.Forall₂ P l3 l4 →
      List.Forall₂ P (l1 ++ l3) (l2 ++ l4)
  | _, _, _, _, .nil, h2 => h2
  | _, _, _, _, .cons h t, h2 => .cons h (forall2_append t h2)

/-- The fragment loop encodes to ranks of spans concatenating to the UTF-8
bytes of the concatenated fragments. -/
theorem encodeFragments_spans (ranks : List (List Nat × Nat)) :
    ∀ frags : List (List Char),
      (∀ frag ∈ frags, frag ≠ [] ∧ ∀ b ∈ utf8 frag, (assocGet ranks [b]).isSome) →
      ∃ spans : List (List Nat), spans.flatten = utf8 frags.flatten ∧
        List.Forall₂ (fun bs tok => assocGet ranks bs = some tok) spans
          (frags.flatMap (encodeFragment ranks))
  | [], _ => ⟨[], rfl, .nil⟩
  | frag :: rest, h => by
    obtain ⟨hne, hcov⟩ := h frag (by simp)
    obtain ⟨spansf, hf1, hf2⟩ := encodeFragment_spans ranks frag hne hcov
    obtain ⟨spansr, hr1, hr2⟩ :=
      encodeFragments_spans ranks rest (fun fr hfr => h fr (by simp [hfr]))
    refine ⟨spansf ++ spansr, ?_, ?_⟩
    · rw [List.flatten_append, hf1, hr1, List.flatten_cons]
      rw [show utf8 (frag ++ rest.flatten) = utf8 frag ++ utf8 rest.flatten from
        List.flatMap_append ..]
    · rw [List.flatMap_cons]
      exact forall2_append hf2 hr2

/-- With no special tokens allowed, the rejection scan never accepts. -/
theorem scanSpecial_nil_allowed (specials : List (List Char)) (text : List Char) :
    ∀ (fuel start : Nat), scanSpecial specials [] text start fuel = none
  | 0, _ => rfl
  | fuel + 1, start => by
    rw [scanSpecial]
    cases h : execSpecial specials text start (text.length + 1) with
    | none => rfl
    | some p =>
      simp only [List.not_mem_nil, if_false]
      exact scanSpecial_nil_allowed specials text fuel (p.1 + 1)

/-- `encode` with no allowed specials is the fragment loop on the full text. -/
theorem bpeEncode_noSpecial (enc : Bpe) (splitter : List Char → List (List Char))
    (text : List Char) :
    bpeEncode enc splitter [] text = encodePlain enc.encoder splitter text := by
  rw [bpeEncode, encodeLoop, scanSpecial_nil_allowed]
  rw [slice, List.drop_zero, Nat.sub_zero, List.take_length]

theorem assocGet_cons {α β : Type} [DecidableEq α] (a : α) (b : β)
    (rest : List (α × β)) (k : α) :
    assocGet ((a, b) :: rest) k = if a = k then some b else assocGet rest k := by
  by_cases h : a = k
  · simp [assocGet, List.find?, h]
  · simp [assocGet, List.find?, h]

theorem assocGet_mem {α β : Type} [DecidableEq α] {m : List (α × β)} {k : α} {v : β}
    (h : assocGet m k = some v) : (k, v) ∈ m := by
  induction m with
  | nil => cases h
  | cons e rest ih =>
    obtain ⟨a, b⟩ := e
    rw [assocGet_cons] at h
    split at h
    · rename_i ha
      injection h with h'
      subst ha h'
      simp
    · exact List.mem_cons_of_mem _ (ih h)

/-- When ranks are unique, the constructor's `decoder` inverts `encoder`. -/
theorem dec_inverse (encoder : List (List Nat × Nat))
    (hnd : (encoder.map (·.2)).Nodup) :
    ∀ (k : List Nat) (r : Nat), assocGet encoder k = some r →
      assocGet (encoder.map (fun e => (e.2, e.1))) r = some k := by
  induction encoder with
  | nil => intro k r h; cases h
  | cons e rest ih =>
    intro k r h
    obtain ⟨a, b⟩ := e
    rw [assocGet_cons] at h
    simp only [List.map_cons]
    rw [assocGet_cons]
    split at h
    · rename_i ha
      injection h with h'
      subst ha h'
      rw [if_pos rfl]
    · rename_i ha
      have hbr : b ≠ r := by
        intro hc
        subst hc
        have hmem := assocGet_mem h
        have : b ∈ rest.map (·.2) := List.mem_map.mpr ⟨(k, b), hmem, rfl⟩
        simp only [List.map_cons, List.nodup_cons] at hnd
        exact hnd.1 this
      rw [if_neg hbr]
      exact ih (by simp only [List.map_cons, List.nodup_cons] at hnd; exact hnd.2) k r h

theorem decodeBytesGo_ok (dec sdec : List (Nat × List Nat)) :
    ∀ {spans : List (List Nat)} {tokens : List Nat},
      List.Forall₂ (fun bs tok => assocGet dec tok = some bs) spans tokens →
      decodeBytesGo dec sdec tokens = .ok spans := by
  intro spans tokens h
  induction h with
  | nil => rfl
  | cons hd tl ih =>
    rw [decodeBytesGo, hd, ih]
    rfl

/-- `BpeEncoding.decode` (plain encoding): decode bytes, then UTF-8. -/
def bpeDecode (dec sdec : List (Nat × List Nat)) (tokens : List Nat) :
    Except String (List Char) :=
  (bpeDecodeBytes dec sdec tokens).map utf8Decode

/-- C8: for a plain BPE encoding (identity hooks) built by the constructor,
`decode (encode t) = t` for every scalar text `t`, whenever the splitter's
fragments are non-empty and concatenate to `t` (the pre-tokenization
patterns cover their input) and every byte of `t` has a rank (true of the
tiktoken vocabularies, which contain all 256 single bytes).  `allowed = []`
models the default `encode(t)` call, under which no special literal is ever
consumed — subsuming texts containing no special literal. -/
theorem claim_C8 (enc : Bpe) (splitter : List Char → List (List Char))
    (text : List Char) (dec sdec : List (Nat × List Nat))
    (hok : mkBpeDecoders enc.encoder enc.specials = .ok (dec, sdec))
    (hjoin : (splitter text).flatten = text)
    (hne : ∀ frag ∈ splitter text, frag ≠ [])
    (hcover : ∀ b ∈ utf8 text, (assocGet enc.encoder [b]).isSome) :
    bpeDecode dec sdec (bpeEncode enc splitter [] text) = .ok text := by
  have hdec : dec = enc.encoder.map (fun e => (e.2, e.1)) ∧
      (enc.encoder.map (·.2)).Nodup := by
    cases hbd : buildDecoderGo [] enc.encoder with
    | error e => simp [mkBpeDecoders, hbd] at hok
    | ok d =>
      cases hbs : buildSpecialGo d [] enc.specials with
      | error e => simp [mkBpeDecoders, hbd, hbs] at hok
      | ok q =>
        simp only [mkBpeDecoders, hbd, hbs, Except.ok.injEq, Prod.mk.injEq] at hok
        have hd : d = dec := hok.1
        constructor
        · rw [← hd]
          simpa using buildDecoderGo_ok enc.encoder [] d hbd
        · by_contra hc
          obtain ⟨e, he⟩ := buildDecoderGo_err enc.encoder [] (by simp) (by simpa using hc)
          rw [he] at hbd
          cases hbd
  have hinv : ∀ (k : List Nat) (r : Nat), assocGet enc.encoder k = some r →
      assocGet dec r = some k := by
    intro k r h
    rw [hdec.1]
    exact dec_inverse enc.encoder hdec.2 k r h
  have hfragcov : ∀ frag ∈ splitter text,
      frag ≠ [] ∧ ∀ b ∈ utf8 frag, (assocGet enc.encoder [b]).isSome := by
    intro frag hfrag
    refine ⟨hne frag hfrag, fun b hb => ?_⟩
    apply hcover
    rw [utf8] at hb ⊢
    obtain ⟨c, hc, hbc⟩ := List.mem_flatMap.mp hb
    refine List.mem_flatMap.mpr ⟨c, ?_, hbc⟩
    rw [← hjoin]
    exact List.mem_flatten.mpr ⟨frag, hfrag, hc⟩
  obtain ⟨spans, hflat, hfa⟩ := encodeFragments_spans enc.encoder (splitter text) hfragcov
  have hfa' : List.Forall₂ (fun bs tok => assocGet dec tok = some bs) spans
      (encodePlain enc.encoder splitter text) :=
    List.Forall₂.imp (fun bs tok h => hinv bs tok h) hfa
  rw [bpeEncode_noSpecial, bpeDecode, bpeDecodeBytes, decodeBytesGo_ok dec sdec hfa']
  rw [Except.map, Except.map]
  rw [hflat, hjoin, utf8Decode_utf8]

/-- Witness for C8: a two-byte vocabulary, single-character splitter, and
the text `"ab"` round-trip exactly. -/
theorem claim_C8_witness :
    bpeDecode [(0, [97]), (1, [98])] []
      (bpeEncode ⟨[([97], 0), ([98], 1)], []⟩ (fun s => s.map (fun c => [c])) []
        ['a', 'b']) = .ok ['a', 'b'] :=
  claim_C8 ⟨[([97], 0), ([98], 1)], []⟩ (fun s => s.map (fun c => [c])) ['a', 'b']
    [(0, [97]), (1, [98])] [] rfl (by decide) (by decide) (by decide)

/-! ## C3: Unigram decode ∘ encode -/

/-- Groups emitted by `decodeGroups` before the end-of-input flush. -/
def dgEmit : Option (List Nat) → List DecTag → List (List Char)
  | _, [] => []
  | none, .byte b :: rest => dgEmit (some [b]) rest
  | none, .unk :: rest => ['�'] :: dgEmit none rest
  | none, .piece p :: rest => p :: dgEmit none rest
  | some run, .byte b :: rest => dgEmit (some (b :: run)) rest
  | some run, .unk :: rest => utf8Decode run.reverse :: ['�'] :: dgEmit none rest
  | some run, .piece p :: rest => utf8Decode run.reverse :: p :: dgEmit none rest

/-- The pending byte run left after `decodeGroups` processes a tag list. -/
def dgState : Option (List Nat) → List DecTag → Option (List Nat)
  | s, [] => s
  | none, .byte b :: rest => dgState (some [b]) rest
  | none, .unk :: rest => dgState none rest
  | none, .piece _ :: rest => dgState none rest
  | some run, .byte b :: rest => dgState (some (b :: run)) rest
  | some _, .unk :: rest => dgState none rest
  | some _, .piece _ :: rest => dgState none rest

/-- The end-of-input flush of a pending byte run. -/
def dgFlush : Option (List Nat) → List (List Char)
  | none => []
  | some run => [utf8Decode run.reverse]

/-- The pending byte run decodes to the given (char-aligned) text. -/
def SRun : Option (List Nat) → List Char → Prop
  | none, pend => pend = []
  | some run, pend => run.reverse = utf8 pend

theorem dg_run (A : List DecTag) : ∀ (s : Option (List Nat)),
    decodeGroups s A = dgEmit s A ++ dgFlush (dgState s A) := by
  induction A with
  | nil => intro s; cases s <;> rfl
  | cons t rest ih =>
    intro s
    cases s <;> cases t <;> simp [decodeGroups, dgEmit, dgState, ih]

theorem dg_split (A : List DecTag) : ∀ (s : Option (List Nat)) (B : List DecTag),
    dgEmit s (A ++ B) = dgEmit s A ++ dgEmit (dgState s A) B ∧
    dgState s (A ++ B) = dgState (dgState s A) B := by
  induction A with
  | nil => intro s B; cases s <;> exact ⟨rfl, rfl⟩
  | cons t rest ih =>
    intro s B
    cases s <;> cases t <;> simp [dgEmit, dgState, ih]

theorem dg_bytes (bs : List Nat) : ∀ (run : List Nat),
    dgEmit (some run) (bs.map DecTag.byte) = [] ∧
    dgState (some run) (bs.map DecTag.byte) = some (bs.reverse ++ run) := by
  induction bs with
  | nil => intro run; exact ⟨rfl, rfl⟩
  | cons b rest ih =>
    intro run
    constructor
    · exact (ih (b :: run)).1
    · show dgState (some (b :: run)) (rest.map DecTag.byte) = some ((b :: rest).reverse ++ run)
      rw [(ih (b :: run)).2]
      simp

theorem dg_bytes_none (b : Nat) (bs : List Nat) :
    dgEmit none ((b :: bs).map DecTag.byte) = [] ∧
    dgState none ((b :: bs).map DecTag.byte) = some ((b :: bs).reverse) := by
  constructor
  · exact (dg_bytes bs [b]).1
  · show dgState (some [b]) (bs.map DecTag.byte) = some ((b :: bs).reverse)
    rw [(dg_bytes bs [b]).2]
    simp

theorem take_succ_getD {α : Type} (l : List α) (i : Nat) (d : α) (h : i < l.length) :
    l.take (i + 1) = l.take i ++ [l.getD i d] := by
  rw [List.take_succ, List.getElem?_eq_getElem h]
  rw [List.getD, List.get?_eq_getElem?, List.getElem?_eq_getElem h]
  rfl

theorem getD_mem {α : Type} (l : List α) (i : Nat) (d : α) (h : i < l.length) :
    l.getD i d ∈ l := by
  have he : l.getD i d = l.get ⟨i, h⟩ := by
    simp [List.getD, List.getElem?_eq_getElem h]
  rw [he]
  exact List.get_mem _ _ h

/-- Decoding the tokens of a valid segmentation reproduces the covered
prefix of the normalized text: the emitted groups plus the pending byte
run concatenate to `text'.take pos`, provided byte tokens decode to their
bytes and trie matches decode to the substrings they spell. -/
theorem seg_decode {u : Unigram} {text' : List Char}
    (hbyte : ∀ c ∈ text', ∀ b ∈ utf8Char c,
      tagTok u.decoder ((assocGet u.byteFallback b).getD u.unkId) = DecTag.byte b)
    (hpiece : ∀ i, i < text'.length → ∀ m ∈ findPieces u.trie (text'.drop i),
      tagTok u.decoder m.2.1 = DecTag.piece ((text'.drop i).take m.1)) :
    ∀ {pos toks sc}, Seg u text' text'.length pos toks sc →
      ∃ pend, SRun (dgState none (toks.map (tagTok u.decoder))) pend ∧
        (dgEmit none (toks.map (tagTok u.decoder))).flatten ++ pend = text'.take pos := by
  intro pos toks sc hseg
  induction hseg with
  | nil => exact ⟨[], rfl, rfl⟩
  | piece hs hi hm ih =>
    rename_i i toksA scA len id psc
    obtain ⟨pend, hrun, hflat⟩ := ih
    have htag : tagTok u.decoder id = DecTag.piece ((text'.drop i).take len) :=
      hpiece i hi (len, id, psc) hm
    have hmap : (toksA ++ [id]).map (tagTok u.decoder)
        = toksA.map (tagTok u.decoder) ++ [DecTag.piece ((text'.drop i).take len)] := by
      rw [List.map_append, List.map_cons, List.map_nil, htag]
    refine ⟨[], ?_, ?_⟩
    · rw [hmap, (dg_split _ none _).2]
      cases dgState none (toksA.map (tagTok u.decoder)) with
      | none => rfl
      | some run => rfl
    · rw [hmap, (dg_split _ none _).1]
      cases hst : dgState none (toksA.map (tagTok u.decoder)) with
      | none =>
        rw [hst] at hrun
        have hpend : pend = [] := hrun
        subst hpend
        rw [List.append_nil] at hflat
        simp only [List.flatten_append, List.flatten_cons, List.flatten_nil,
          List.append_nil, dgEmit]
        rw [hflat, List.take_add]
      | some run =>
        rw [hst] at hrun
        have hdec : utf8Decode run.reverse = pend := by
          rw [hrun, show utf8 pend = utf8 pend from rfl]
          exact utf8Decode_utf8 pend
        simp only [List.flatten_append, List.flatten_cons, List.flatten_nil,
          List.append_nil, dgEmit, hdec]
        rw [← List.append_assoc, hflat, List.take_add]
  | fall hs hi hn hall ih =>
    rename_i i toksA scA
    obtain ⟨pend, hrun, hflat⟩ := ih
    have hcmem : (text'.getD i default) ∈ text' := getD_mem text' i default hn
    have hmapf : (fallbackTokens u (text'.getD i default)).map (tagTok u.decoder)
        = (utf8Char (text'.getD i default)).map DecTag.byte := by
      rw [fallbackTokens, List.map_map]
      exact List.map_congr_left (fun b hb => hbyte _ hcmem b hb)
    have hmap : (toksA ++ fallbackTokens u (text'.getD i default)).map (tagTok u.decoder)
        = toksA.map (tagTok u.decoder) ++ (utf8Char (text'.getD i default)).map DecTag.byte := by
      rw [List.map_append, hmapf]
    obtain ⟨b, bs, hbc⟩ : ∃ b bs, utf8Char (text'.getD i default) = b :: bs := by
      cases h : utf8Char (text'.getD i default) with
      | nil => exact absurd h (utf8Char_ne_nil _)
      | cons b bs => exact ⟨b, bs, rfl⟩
    have hutf1 : utf8 [text'.getD i default] = utf8Char (text'.getD i default) := by
      show utf8Char (text'.getD i default) ++ utf8 [] = _
      rw [show utf8 ([] : List Char) = [] from rfl, List.append_nil]
    refine ⟨pend ++ [text'.getD i default], ?_, ?_⟩
    · rw [hmap, (dg_split _ none _).2, hbc]
      cases hst : dgState none (toksA.map (tagTok u.decoder)) with
      | none =>
        rw [hst] at hrun
        have hpend : pend = [] := hrun
        subst hpend
        rw [(dg_bytes_none b bs).2]
        show ((b :: bs).reverse).reverse = utf8 ([] ++ [text'.getD i default])
        rw [List.reverse_reverse, List.nil_append, hutf1, hbc]
      | some run =>
        rw [hst] at hrun
        rw [(dg_bytes (b :: bs) run).2]
        show ((b :: bs).reverse ++ run).reverse = utf8 (pend ++ [text'.getD i default])
        rw [List.reverse_append, List.reverse_reverse, hrun,
          show utf8 (pend ++ [text'.getD i default])
            = utf8 pend ++ utf8 [text'.getD i default] from List.flatMap_append ..,
          hutf1, hbc]
    · rw [hmap, (dg_split _ none _).1, hbc]
      cases hst : dgState none (toksA.map (tagTok u.decoder)) with
      | none =>
        rw [hst] at hrun
        have hpend : pend = [] := hrun
        subst hpend
        rw [List.append_nil] at hflat
        rw [(dg_bytes_none b bs).1]
        simp only [List.append_nil, List.nil_append]
        rw [hflat, take_succ_getD text' i default hn]
      | some run =>
        rw [(dg_bytes (b :: bs) run).1]
        simp only [List.append_nil]
        rw [← List.append_assoc, hflat, take_succ_getD text' i default hn]

/-- Decoding the tokens of a full segmentation reproduces the normalized
text exactly. -/
theorem seg_decode_full {u : Unigram} {text' : List Char}
    (hbyte : ∀ c ∈ text', ∀ b ∈ utf8Char c,
      tagTok u.decoder ((assocGet u.byteFallback b).getD u.unkId) = DecTag.byte b)
    (hpiece : ∀ i, i < text'.length → ∀ m ∈ findPieces u.trie (text'.drop i),
      tagTok u.decoder m.2.1 = DecTag.piece ((text'.drop i).take m.1))
    {toks : List Nat} {sc : ℚ}
    (hseg : Seg u text' text'.length text'.length toks sc) :
    (decodeGroups none (toks.map (tagTok u.decoder))).flatten = text' := by
  obtain ⟨pend, hrun, hflat⟩ := seg_decode hbyte hpiece hseg
  rw [dg_run, List.flatten_append]
  cases hst : dgState none (toks.map (tagTok u.decoder)) with
  | none =>
    rw [hst] at hrun
    have hpend : pend = [] := hrun
    subst hpend
    rw [List.append_nil, List.take_length] at hflat
    rw [show dgFlush none = [] from rfl, List.flatten_nil, List.append_nil, hflat]
  | some run =>
    rw [hst] at hrun
    have hdec : utf8Decode run.reverse = pend := by
      rw [hrun]
      exact utf8Decode_utf8 pend
    rw [List.take_length] at hflat
    rw [show dgFlush (some run) = [utf8Decode run.reverse] from rfl, List.flatten_cons,
      List.flatten_nil, List.append_nil, hdec, hflat]

theorem unigramNormalize_eq (u : Unigram) (text : List Char) :
    unigramNormalize u text =
      (if (if u.removeExtraWs then trimWs (collapseWs text) else text).length = 0 then []
       else ((if u.addDummy then
                ' ' :: (if u.removeExtraWs then trimWs (collapseWs text) else text)
              else (if u.removeExtraWs then trimWs (collapseWs text) else text)).map
         (fun c => if c = ' ' then SPIECE else c))) := rfl

/-- Characters surviving whitespace-collapse come from the input or are the
inserted space. -/
theorem mem_collapseWsGo : ∀ (r : Bool) (l : List Char) (c : Char),
    c ∈ collapseWsGo r l → c ∈ l ∨ c = ' '
  | _, [], _ => by intro h; cases h
  | r, d :: rest, c => by
    intro h
    rw [collapseWsGo] at h
    by_cases hw : jsWs d
    · rw [if_pos hw] at h
      cases r with
      | true =>
        rw [if_pos rfl] at h
        rcases mem_collapseWsGo true rest c h with h' | h'
        · exact Or.inl (List.mem_cons_of_mem _ h')
        · exact Or.inr h'
      | false =>
        rw [if_neg (by simp)] at h
        rcases List.mem_cons.mp h with h' | h'
        · exact Or.inr h'
        · rcases mem_collapseWsGo true rest c h' with h'' | h''
          · exact Or.inl (List.mem_cons_of_mem _ h'')
          · exact Or.inr h''
    · rw [if_neg hw] at h
      rcases List.mem_cons.mp h with h' | h'
      · exact Or.inl (h' ▸ List.mem_cons_self _ _)
      · rcases mem_collapseWsGo false rest c h' with h'' | h''
        · exact Or.inl (List.mem_cons_of_mem _ h'')
        · exact Or.inr h''

theorem mem_trimWs (l : List Char) (c : Char) (h : c ∈ trimWs l) : c ∈ l := by
  rw [trimWs, List.mem_reverse] at h
  have h2 : c ∈ (l.dropWhile jsWs).reverse := (List.dropWhile_sublist _).subset h
  rw [List.mem_reverse] at h2
  exact (List.dropWhile_sublist _).subset h2

/-- Meta-symbol substitution followed by its inverse is the identity on
texts containing no meta symbol. -/
theorem mapRound (l : List Char) (h : SPIECE ∉ l) :
    (l.map (fun c => if c = ' ' then SPIECE else c)).map
      (fun c => if c = SPIECE then ' ' else c) = l := by
  rw [List.map_map]
  have hc : ∀ c ∈ l, ((fun c => if c = SPIECE then ' ' else c) ∘
      (fun c => if c = ' ' then SPIECE else c)) c = id c := by
    intro c hcl
    by_cases hsp : c = ' '
    · simp [hsp]
    · have : c ≠ SPIECE := fun hc' => h (hc' ▸ hcl)
      simp [hsp, this]
  rw [List.map_congr_left hc, List.map_id]

/-- C3 (amended): for any Unigram model whose `byteFallback` covers the
UTF-8 bytes of the normalized input (with the decoder mapping each byte
token back to its byte) and whose trie matches decode to the substrings
they spell, and any text without the meta symbol `▁`:
`decode(encode(t))` equals the whitespace-normalized text — collapse and
trim when `removeExtraWhitespaces`, else `t` itself — WITHOUT the dummy
prefix, which `decode` strips again. -/
theorem claim_C3 (u : Unigram) (text : List Char)
    (hSP : SPIECE ∉ text)
    (hbyte : ∀ c ∈ unigramNormalize u text, ∀ b ∈ utf8Char c,
      tagTok u.decoder ((assocGet u.byteFallback b).getD u.unkId) = DecTag.byte b)
    (hpiece : ∀ i, i < (unigramNormalize u text).length →
      ∀ m ∈ findPieces u.trie ((unigramNormalize u text).drop i),
      tagTok u.decoder m.2.1 =
        DecTag.piece (((unigramNormalize u text).drop i).take m.1)) :
    unigramDecode u (unigramEncode u text) =
      (if u.removeExtraWs then trimWs (collapseWs text) else text) := by
  by_cases h0 : (if u.removeExtraWs then trimWs (collapseWs text) else text).length = 0
  · have hnorm : unigramNormalize u text = [] := by
      rw [unigramNormalize_eq, if_pos h0]
    have henc : unigramEncode u text = [] := by
      rw [unigramEncode]
      dsimp only
      rw [hnorm]
      rfl
    have hdec : unigramDecode u [] = [] := by
      cases hA : u.addDummy <;>
        simp [unigramDecode, decodeGroups, hA]
    rw [henc, hdec]
    exact (List.length_eq_zero.mp h0).symm
  · have hnorm : unigramNormalize u text =
        (if u.addDummy then
          ' ' :: (if u.removeExtraWs then trimWs (collapseWs text) else text)
         else (if u.removeExtraWs then trimWs (collapseWs text) else text)).map
          (fun c => if c = ' ' then SPIECE else c) := by
      rw [unigramNormalize_eq, if_neg h0]
    have hlen : ¬ (unigramNormalize u text).length = 0 := by
      rw [hnorm, List.length_map]
      cases hA : u.addDummy
      · simpa [hA] using h0
      · simp [hA]
    have H := viterbiRun_inv u (unigramNormalize u text)
    obtain ⟨toks, v, hseg, hbest, heq⟩ :=
      backtrack_spec H ((unigramNormalize u text).length + 1)
        (unigramNormalize u text).length [] le_rfl (by omega)
    have henc : unigramEncode u text = toks := by
      have hunf : unigramEncode u text = (backtrackGo u (unigramNormalize u text)
          (viterbiRun u (unigramNormalize u text)).prev
          ((unigramNormalize u text).length + 1)
          (unigramNormalize u text).length []).reverse := by
        rw [unigramEncode]
        dsimp only
        rw [if_neg hlen]
      rw [hunf, heq]
      simp
    have hjoined : (decodeGroups none (toks.map (tagTok u.decoder))).flatten =
        unigramNormalize u text := seg_decode_full hbyte hpiece hseg
    have hSP1 : SPIECE ∉ (if u.removeExtraWs then trimWs (collapseWs text) else text) := by
      cases hR : u.removeExtraWs
      · simpa [hR] using hSP
      · rw [if_pos (by simp [hR])]
        intro hmem
        rcases mem_collapseWsGo false text SPIECE (mem_trimWs _ _ hmem) with h' | h'
        · exact hSP h'
        · exact absurd h' (by decide)
    have hround : (((if u.removeExtraWs then trimWs (collapseWs text) else text).map
        (fun c => if c = ' ' then SPIECE else c)).map
        (fun c => if c = SPIECE then ' ' else c)) =
        (if u.removeExtraWs then trimWs (collapseWs text) else text) :=
      mapRound _ hSP1
    rw [henc, unigramDecode]
    rw [hjoined, hnorm]
    cases hA : u.addDummy
    · simp only [hA, if_false, Bool.false_eq_true]
      exact hround
    · simp only [hA, if_true, List.map_cons, if_pos rfl]
      rw [hround]

/-- The C3 counterexample model: byte pieces covering `"▁a"`, with the
default `addDummyPrefix = true` and `removeExtraWhitespaces = true`. -/
def c3Model : SPModel :=
  { pieces :=
      [⟨"<unk>".toList, 0, .UNKNOWN⟩,
       ⟨"<0xE2>".toList, 0, .BYTE⟩,
       ⟨"<0x96>".toList, 0, .BYTE⟩,
       ⟨"<0x81>".toList, 0, .BYTE⟩,
       ⟨"<0x61>".toList, 0, .BYTE⟩] }

/-- C3 counterexample: with `addDummyPrefix` set (the default),
`decode(encode("a")) = "a"` while `normalize("a") = "▁a"` — decode strips
the dummy prefix, so it does not equal the dummy-prefixed normalization. -/
theorem claim_C3_counterexample :
    unigramDecode (unigramOfModel c3Model)
        (unigramEncode (unigramOfModel c3Model) ['a']) = ['a'] ∧
    unigramNormalize (unigramOfModel c3Model) ['a'] = [SPIECE, 'a'] ∧
    (['a'] : List Char) ≠ [SPIECE, 'a'] := by decide

/-- Witness for C3: the amended equation holds on the byte-fallback model
and the text `"a"`. -/
theorem claim_C3_witness :
    unigramDecode (unigramOfModel c3Model)
        (unigramEncode (unigramOfModel c3Model) ['a']) =
      (if (unigramOfModel c3Model).removeExtraWs
       then trimWs (collapseWs ['a']) else ['a']) :=
  claim_C3 (unigramOfModel c3Model) ['a'] (by decide) (by decide) (by decide)

end Tokenizers
